import Mathlib

/-!
Verification development for the rnndescent nearest-neighbor-descent core.

The C++ sources embedded here are:
  * `inst/include/tdoann/nndescent.h` (candidate build, local join, build and
    query loops, general-neighbor graph, neighbor-of-neighbor search),
  * `rnn.h` (`HeapAddSymmetric`, `HeapAddQuery`, `r_to_heap`),
  * `rnn_parallel.h` (`batch_parallel_for`),
  * `rrand_init_parallel.h` (its own `batch_parallel_for` copy),
  * `setheap.h` (`SetHeap::add_pair`),
  * the graph-merge entry `merge_nn_impl`.

The per-point bounded max-heap (`heap.h`), the graph updater
(`graphupdate.h`), the candidate priorities (`candidatepriority.h`) and the
serial R-to-heap loader (`rnn_rtoheap.h`) are declared and called by these
files but their definitions are not part of the source tree given here; they
are modelled from the specification, as marked on each such definition.

Distances are modelled as rationals extended with an infinity sentinel
(the C++ uses IEEE doubles initialised to the maximum value); indices are
natural numbers with `NPOS` the maximum value of a 64-bit `size_t`.
-/

/-- Extended distance value: a finite rational or the infinity used for
empty heap slots. -/
inductive RDist where
  | fin : ℚ → RDist
  | inf : RDist
deriving DecidableEq, Repr

/-- Strict comparison of extended distances (`inf` is the top element). -/
def RDist.blt : RDist → RDist → Bool
  | RDist.fin a, RDist.fin b => decide (a < b)
  | RDist.fin _, RDist.inf => true
  | RDist.inf, _ => false

/-- Non-strict comparison of extended distances. -/
def RDist.ble (a b : RDist) : Bool := !(RDist.blt b a)

/-- The sentinel index `NPOS` (`std::numeric_limits<std::size_t>::max()`
on a 64-bit platform) marking an empty heap slot. -/
def NPOS : Nat := 2 ^ 64 - 1

/-- One heap slot: neighbor index, distance, and the new/old flag
(`true` models the C++ flag value 1). -/
structure Entry where
  idx : Nat
  dist : RDist
  flag : Bool
deriving DecidableEq, Repr

/-- The unused-slot sentinel `(NPOS, +inf, 0)`. -/
def emptyEntry : Entry := ⟨NPOS, RDist.inf, false⟩

/-- Modelled from the spec: `tdoann::NeighborHeap` (`heap.h` is not in the
source tree).  A dense `n_points x n_nbrs` structure of
(index, distance, flag) triples, one row per point, each row interpreted as
a bounded max-heap on the distance.  The physical binary-heap layout is not
observable through the specified operations, so a row is kept as a plain
list of its `n_nbrs` slots and the root is the slot of maximal distance. -/
structure NeighborHeap where
  n_nbrs : Nat
  rows : List (List Entry)
deriving DecidableEq, Repr

/-- A fresh heap: every slot holds the `(NPOS, +inf, 0)` sentinel. -/
def mkHeap (n_points n_nbrs : Nat) : NeighborHeap :=
  ⟨n_nbrs, List.replicate n_points (List.replicate n_nbrs emptyEntry)⟩

/-- The root distance of a row: the maximum over its slots
(`dist[i][0]` in the C++, by the max-heap property). -/
def rootDist : List Entry → RDist
  | [] => RDist.inf
  | e :: es => es.foldl (fun m x => if RDist.blt m x.dist then x.dist else m) e.dist

/-- Replace the first slot holding distance `m` by `e`. -/
def replaceFirstAt (m : RDist) (e : Entry) : List Entry → List Entry
  | [] => []
  | x :: xs => if x.dist = m then e :: xs else x :: replaceFirstAt m e xs

/-- Modelled from the spec: the core insertion step shared by
`NeighborHeap::unchecked_push` and `checked_push`: overwrite the root (a
slot of maximal distance) with the new triple and restore the heap shape
(row layout is unobservable, so the sift-down is the identity here). -/
def NeighborHeap.unchecked_push (h : NeighborHeap) (i : Nat) (d : RDist)
    (j : Nat) (f : Bool) : NeighborHeap :=
  let row := h.rows.getD i []
  ⟨h.n_nbrs, h.rows.set i (replaceFirstAt (rootDist row) ⟨j, d, f⟩ row)⟩

/-- Whether index `j` occurs in row `i` (`NeighborHeap::contains`). -/
def NeighborHeap.containsIdx (h : NeighborHeap) (i j : Nat) : Bool :=
  (h.rows.getD i []).any (fun e => e.idx == j)

/-- Modelled from the spec: `NeighborHeap::checked_push(i, d, j, flag)`
(`heap.h` is not in the source tree): if `d >= dist[i,0]`, or `j == i`, or
`j` is already present in row `i`, reject and return 0; otherwise replace
the root, sift down, and return 1. -/
def NeighborHeap.checked_push (h : NeighborHeap) (i : Nat) (d : RDist)
    (j : Nat) (f : Bool) : NeighborHeap × Nat :=
  let row := h.rows.getD i []
  if RDist.ble (rootDist row) d || j == i || h.containsIdx i j then (h, 0)
  else (h.unchecked_push i d j f, 1)

/-- Modelled from the spec: `NeighborHeap::checked_push_pair(i, d, j, flag)`:
a `checked_push` into row `i` and, when `i ≠ j`, a symmetric `checked_push`
into row `j`; returns the number of accepted pushes. -/
def NeighborHeap.checked_push_pair (h : NeighborHeap) (i : Nat) (d : RDist)
    (j : Nat) (f : Bool) : NeighborHeap × Nat :=
  let (h1, c1) := h.checked_push i d j f
  if i == j then (h1, c1)
  else
    let (h2, c2) := h1.checked_push j d i f
    (h2, c1 + c2)

/-- Slot accessor `NeighborHeap::index(i, j)` (sentinel for out of range). -/
def NeighborHeap.index (h : NeighborHeap) (i j : Nat) : Nat :=
  ((h.rows.getD i []).getD j emptyEntry).idx

/-- Slot accessor for the distance at `(i, j)`. -/
def NeighborHeap.distAt (h : NeighborHeap) (i j : Nat) : RDist :=
  ((h.rows.getD i []).getD j emptyEntry).dist

/-- Slot accessor for the flag at `(i, j)`. -/
def NeighborHeap.flagAt (h : NeighborHeap) (i j : Nat) : Bool :=
  ((h.rows.getD i []).getD j emptyEntry).flag

/-- Ordering used to sort a row ascending by distance. -/
def entryLe (a b : Entry) : Prop := RDist.ble a.dist b.dist = true

instance : DecidableRel entryLe := fun a b => by
  unfold entryLe; infer_instance

/-- Modelled from the spec: `NeighborHeap::deheap_sort()` (`heap.h` is not
in the source tree): repeated extract-max leaves every row sorted ascending
by distance; the empty-slot sentinels (distance `+inf`) end up last. -/
def NeighborHeap.deheap_sort (h : NeighborHeap) : NeighborHeap :=
  ⟨h.n_nbrs, h.rows.map (List.insertionSort entryLe)⟩

/-- Exported k-NN graph `tdoann::NNGraph`: per-point index and distance
rows (the heap rows flattened; distances keep the infinity sentinel of
never-filled slots, as the C++ keeps the initialising double). -/
structure NNGraph where
  n_nbrs : Nat
  idx : List (List Nat)
  dist : List (List RDist)
deriving DecidableEq, Repr

/-- Conversion `tdoann::heap_to_graph`: read every slot out of the heap. -/
def heap_to_graph (h : NeighborHeap) : NNGraph :=
  ⟨h.n_nbrs, h.rows.map (fun r => r.map Entry.idx),
    h.rows.map (fun r => r.map Entry.dist)⟩

/-- From `rnn.h`: `HeapAddSymmetric::push(current_graph, ref, query, d)` is
`checked_push_pair(ref, d, query, 1)`. -/
def heapAddSymmetric (g : NeighborHeap) (ref query : Nat) (d : RDist) :
    NeighborHeap :=
  (g.checked_push_pair ref d query true).1

/-- From `rnn.h`: `HeapAddQuery::push(current_graph, ref, query, d)` is
`checked_push(ref, d, query, 1)` (no reverse edge). -/
def heapAddQuery (g : NeighborHeap) (ref query : Nat) (d : RDist) :
    NeighborHeap :=
  (g.checked_push ref d query true).1

/-- Modelled from the spec: `tdoann::graph_to_heap_serial<HeapAdd>`
(`nngraph.h` is not in the source tree): initialise the current graph by
pushing every initial edge through the `HeapAdd` policy, row-major. -/
def graph_to_heap_serial (hadd : NeighborHeap → Nat → Nat → RDist → NeighborHeap)
    (g : NeighborHeap) (init : NNGraph) : NeighborHeap :=
  (List.range init.idx.length).foldl
    (fun acc i =>
      (List.range init.n_nbrs).foldl
        (fun acc2 j =>
          hadd acc2 i ((init.idx.getD i []).getD j NPOS)
            ((init.dist.getD i []).getD j RDist.inf))
        acc)
    g

/-- A candidate priority, as in `candidatepriority.h` (not in the source
tree; modelled from the spec as a pluggable functor `p(heap, slot)`); the
flat slot index `i * n_nbrs + j` is passed here as the pair `(i, j)`. -/
def CandPriority : Type := NeighborHeap → Nat → Nat → RDist

/-- Modelled from the spec: the RankedByDistance candidate priority reads
the current distance of the slot; its factory sets `should_sort = true`. -/
def rankedPriority : CandPriority := fun h i j => h.distAt i j

/-- From `nndescent.h` lines 40-55: clear the current-graph flag of every
edge whose index was retained in the row's new-candidate heap. -/
def flag_retained_new_candidates (cur newC : NeighborHeap) : NeighborHeap :=
  ⟨cur.n_nbrs,
    cur.rows.mapIdx (fun i row =>
      row.map (fun e =>
        if newC.containsIdx i e.idx then { e with flag := false } else e))⟩

/-- One `checked_push_pair` call issued by `build_candidates_full`: source
row, priority value, neighbor index, and the new/old flag (which also
selects the destination heap). -/
structure CandPush where
  src : Nat
  pr : RDist
  nbr : Nat
  isn : Bool
deriving DecidableEq, Repr

/-- The ordered list of candidate pair-pushes issued by the i/j loops of
`build_candidates_full` (`nndescent.h` lines 83-97); the current graph is
only read during these loops. -/
def candidate_pushes (cur : NeighborHeap) (cp : CandPriority) : List CandPush :=
  (List.range cur.rows.length).flatMap (fun i =>
    (List.range cur.n_nbrs).map (fun j =>
      ⟨i, cp cur i j, cur.index i j, cur.flagAt i j⟩))

/-- From `nndescent.h` lines 75-99 (`build_candidates_full`): split the
current graph, slot by slot, into new/old candidate heaps via
`checked_push_pair`, then run `flag_retained_new_candidates`.  Returns the
updated current graph and the two candidate heaps. -/
def build_candidates_full (cur : NeighborHeap) (cp : CandPriority)
    (newH oldH : NeighborHeap) : NeighborHeap × NeighborHeap × NeighborHeap :=
  let st := (candidate_pushes cur cp).foldl
    (fun (p : NeighborHeap × NeighborHeap) t =>
      if t.isn then ((p.1.checked_push_pair t.src t.pr t.nbr t.isn).1, p.2)
      else (p.1, (p.2.checked_push_pair t.src t.pr t.nbr t.isn).1))
    (newH, oldH)
  (flag_retained_new_candidates cur st.1, st.1, st.2)

/-- Modelled from the spec: the serial graph updater's
`generate_and_apply(p, q)` (`graphupdate.h` is not in the source tree):
compute the distance and push the pair symmetrically with flag 1,
returning the number of accepted row updates. -/
def generate_and_apply (dfun : Nat → Nat → ℚ) (g : NeighborHeap)
    (p q : Nat) : NeighborHeap × Nat :=
  g.checked_push_pair p (RDist.fin (dfun p q)) q true

/-- From `nndescent.h` lines 155-188 (`local_join`): for every source
point, evaluate all new/new pairs with `k ≥ j` and all new/old pairs,
accumulating the accepted-update count. -/
def local_join (dfun : Nat → Nat → ℚ) (g : NeighborHeap)
    (newN oldN : NeighborHeap) (n_points mc : Nat) : NeighborHeap × Nat :=
  (List.range n_points).foldl
    (fun (st : NeighborHeap × Nat) i =>
      (List.range mc).foldl
        (fun st2 j =>
          let p := newN.index i j
          if p == NPOS then st2
          else
            let st3 := (List.range' j (mc - j)).foldl
              (fun st4 k =>
                let q := newN.index i k
                if q == NPOS then st4
                else
                  let r := generate_and_apply dfun st4.1 p q
                  (r.1, st4.2 + r.2))
              st2
            (List.range mc).foldl
              (fun st4 k =>
                let q := oldN.index i k
                if q == NPOS then st4
                else
                  let r := generate_and_apply dfun st4.1 p q
                  (r.1, st4.2 + r.2))
              st3)
        st)
    (g, 0)

/-- From `nndescent.h` lines 101-103: the convergence test
`n_updates <= tol`. -/
def is_converged (n_updates : Nat) (tol : ℚ) : Bool :=
  decide ((n_updates : ℚ) ≤ tol)

/-- One iteration of the `nnd_build` loop body (`nndescent.h` lines
127-146): allocate candidate heaps of width `max_candidates`, build
candidates, optionally deheap-sort them, and run the local join. -/
def nnd_iter (dfun : Nat → Nat → ℚ) (cp : CandPriority) (should_sort : Bool)
    (mc : Nat) (g : NeighborHeap) : NeighborHeap × Nat :=
  let n_points := g.rows.length
  let (g1, newC, oldC) :=
    build_candidates_full g cp (mkHeap n_points mc) (mkHeap n_points mc)
  let newC := if should_sort then newC.deheap_sort else newC
  let oldC := if should_sort then oldC.deheap_sort else oldC
  local_join dfun g1 newC oldC n_points mc

/-- The `nnd_build` iteration loop: run up to `n_iters` iterations,
stopping early when `is_converged`; also counts the iterations that were
actually executed. -/
def nnd_loop (dfun : Nat → Nat → ℚ) (cp : CandPriority) (should_sort : Bool)
    (mc : Nat) (tol : ℚ) : NeighborHeap → Nat → NeighborHeap × Nat
  | g, 0 => (g, 0)
  | g, Nat.succ it =>
    let (g1, c) := nnd_iter dfun cp should_sort mc g
    if is_converged c tol then (g1, 1)
    else
      let (g2, k) := nnd_loop dfun cp should_sort mc tol g1 it
      (g2, k + 1)

/-- From `nndescent.h` lines 108-150 (`nnd_build`, serial path): load the
initial graph with `HeapAddSymmetric`, set `tol = delta * n_nbrs *
n_points`, iterate, deheap-sort, and export; the second component is the
number of candidate-build / local-join iterations executed. -/
def nnd_build (dfun : Nat → Nat → ℚ) (nn_init : NNGraph)
    (mc n_iters : Nat) (cp : CandPriority) (should_sort : Bool)
    (delta : ℚ) : NNGraph × Nat :=
  let n_points := nn_init.idx.length
  let n_nbrs := nn_init.n_nbrs
  let tol : ℚ := delta * n_nbrs * n_points
  let g0 := graph_to_heap_serial heapAddSymmetric (mkHeap n_points n_nbrs) nn_init
  let (gf, iters) := nnd_loop dfun cp should_sort mc tol g0 n_iters
  (heap_to_graph gf.deheap_sort, iters)

/-- Five collinear points used as a concrete build input: one far-away
point and a tight cluster, so that the first local join accepts more than
`n_nbrs * n_points` updates. -/
def exPoints : List ℚ := [0, 1000, 999, 998, 997]

/-- One-dimensional Manhattan distance on `exPoints`. -/
def exDfun (i j : Nat) : ℚ := |exPoints.getD i 0 - exPoints.getD j 0|

/-- A valid initial 1-NN graph for `exPoints`: every point starts with a
far neighbor. -/
def exInit : NNGraph :=
  ⟨1, [[1], [0], [0], [0], [0]],
    [[RDist.fin 1000], [RDist.fin 1000], [RDist.fin 999], [RDist.fin 998],
      [RDist.fin 997]]⟩

/-- The executed-iteration count of `nnd_loop` is at least one whenever at
least one iteration was requested. -/
theorem nnd_loop_count_pos (dfun : Nat → Nat → ℚ) (cp : CandPriority)
    (ss : Bool) (mc : Nat) (tol : ℚ) (g : NeighborHeap) (it : Nat)
    (h : 1 ≤ it) : 1 ≤ (nnd_loop dfun cp ss mc tol g it).2 := by
  cases it with
  | zero => omega
  | succ n =>
    simp only [nnd_loop]
    by_cases hc : is_converged (nnd_iter dfun cp ss mc g).2 tol
    · simp [hc]
    · simp [hc]


set_option maxRecDepth 600000

/-- C1 (corrected, counterexample): with `delta = 1.0` and `n_iters = 2`,
the build on `exPoints` executes two candidate-build / local-join
iterations, because the first iteration accepts 7 updates while
`delta * n_nbrs * n_points = 5`; the claim that every valid input with
`delta = 1.0` stops after one iteration is false. -/
theorem nnd_build_delta_one_two_iterations :
    (nnd_build exDfun exInit 5 2 rankedPriority true 1).2 = 2 ∧
      (nnd_build exDfun exInit 5 2 rankedPriority true 1).2 ≠ 1 := by
  with_unfolding_all decide

/-- C1 (amended): with `delta = 1.0` and `n_iters ≥ 1`, the build stops
after exactly one iteration if and only if `n_iters = 1` or the first
iteration's accepted-update count passes the convergence test
`c ≤ n_nbrs * n_points`. -/
theorem nnd_build_delta_one_first_iteration_iff
    (dfun : Nat → Nat → ℚ) (nn_init : NNGraph) (mc n_iters : Nat)
    (cp : CandPriority) (ss : Bool) (h : 1 ≤ n_iters) :
    (nnd_build dfun nn_init mc n_iters cp ss 1).2 = 1 ↔
      (n_iters = 1 ∨
        is_converged
          (nnd_iter dfun cp ss mc
            (graph_to_heap_serial heapAddSymmetric
              (mkHeap nn_init.idx.length nn_init.n_nbrs) nn_init)).2
          ((nn_init.n_nbrs : ℚ) * (nn_init.idx.length : ℚ)) = true) := by
  cases n_iters with
  | zero => omega
  | succ n =>
    simp only [nnd_build, nnd_loop, one_mul]
    by_cases hc :
        is_converged
          (nnd_iter dfun cp ss mc
            (graph_to_heap_serial heapAddSymmetric
              (mkHeap nn_init.idx.length nn_init.n_nbrs) nn_init)).2
          ((nn_init.n_nbrs : ℚ) * (nn_init.idx.length : ℚ)) = true
    · simp [hc]
    · simp only [hc, if_false, Bool.false_eq_true]
      cases n with
      | zero => simp [nnd_loop, hc]
      | succ m =>
        have hpos := nnd_loop_count_pos dfun cp ss mc
          ((nn_init.n_nbrs : ℚ) * (nn_init.idx.length : ℚ))
          (nnd_iter dfun cp ss mc
            (graph_to_heap_serial heapAddSymmetric
              (mkHeap nn_init.idx.length nn_init.n_nbrs) nn_init)).1
          (m + 1) (by omega)
        constructor
        · intro h1
          omega
        · rintro (h1 | h1)
          · omega
          · simp at h1

/-- C1 (witness for the amended theorem): the amended equivalence applied
to the concrete five-point input with `n_iters = 2`. -/
theorem nnd_build_delta_one_first_iteration_iff_witness :
    (nnd_build exDfun exInit 5 2 rankedPriority true 1).2 = 1 ↔
      (2 = 1 ∨
        is_converged
          (nnd_iter exDfun rankedPriority true 5
            (graph_to_heap_serial heapAddSymmetric
              (mkHeap exInit.idx.length exInit.n_nbrs) exInit)).2
          ((exInit.n_nbrs : ℚ) * (exInit.idx.length : ℚ)) = true) :=
  nnd_build_delta_one_first_iteration_iff exDfun exInit 5 2 rankedPriority
    true (by decide)

/-- From `setheap.h` (`SetHeap`): a neighbor heap together with the set of
already-seen unordered pairs and a pair counter. -/
structure SetHeap where
  neighbor_heap : NeighborHeap
  seen : List (Nat × Nat)
  npairs : Nat
deriving DecidableEq, Repr

/-- From `setheap.h` (`SetHeap::add_pair(i, j, flag)`): order the pair,
reject it if already seen, then push via `unchecked_push` into row `i`
whenever `d < dist[i][0]` and into row `j` whenever `i != j` and
`d < dist[j][0]`; `weight_measure` is the stored distance functor. -/
def SetHeap.add_pair (wfun : Nat → Nat → ℚ) (s : SetHeap) (i0 j0 : Nat)
    (flag : Bool) : SetHeap × Nat :=
  let np := s.npairs + 1
  let i := if i0 > j0 then j0 else i0
  let j := if i0 > j0 then i0 else j0
  if (i, j) ∈ s.seen then (⟨s.neighbor_heap, s.seen, np⟩, 0)
  else
    let seen2 := (i, j) :: s.seen
    let d := RDist.fin (wfun i j)
    let (h1, c1) :=
      if RDist.blt d (rootDist (s.neighbor_heap.rows.getD i [])) then
        (s.neighbor_heap.unchecked_push i d j flag, 1)
      else (s.neighbor_heap, 0)
    let (h2, c2) :=
      if i ≠ j ∧ RDist.blt d (rootDist (h1.rows.getD j [])) then
        (h1.unchecked_push j d i flag, 1)
      else (h1, 0)
    (⟨h2, seen2, np⟩, c1 + c2)

/-- Membership in a row after `replaceFirstAt`: every entry was already in
the row or is the inserted entry. -/
theorem mem_replaceFirstAt {m : RDist} {e : Entry} {x : Entry}
    {l : List Entry} (hx : x ∈ replaceFirstAt m e l) : x ∈ l ∨ x = e := by
  induction l with
  | nil => simp [replaceFirstAt] at hx
  | cons y ys ih =>
    rw [replaceFirstAt] at hx
    by_cases hy : y.dist = m
    · rw [if_pos hy] at hx
      rcases List.mem_cons.mp hx with hx1 | hx1
      · right; exact hx1
      · left; exact List.mem_cons_of_mem _ hx1
    · rw [if_neg hy] at hx
      rcases List.mem_cons.mp hx with hx1 | hx1
      · left; exact hx1 ▸ List.mem_cons_self _ _
      · rcases ih hx1 with h1 | h1
        · left; exact List.mem_cons_of_mem _ h1
        · right; exact h1

/-- The no-self-loop property of the spec: index `i` never occurs among
the entries of row `i`. -/
def NoSelfLoop (h : NeighborHeap) : Prop :=
  ∀ i : Nat, ∀ e ∈ h.rows.getD i [], e.idx ≠ i

/-- A single `checked_push` preserves the no-self-loop property: a push
with `j = i` is rejected, and an accepted push only adds index `j ≠ i`
to row `i`. -/
theorem NoSelfLoop.checked_push {h : NeighborHeap} (h0 : NoSelfLoop h)
    (i : Nat) (d : RDist) (j : Nat) (f : Bool) :
    NoSelfLoop (h.checked_push i d j f).1 := by
  simp only [NeighborHeap.checked_push]
  by_cases hcond :
      (RDist.ble (rootDist (h.rows.getD i [])) d || j == i
        || h.containsIdx i j) = true
  · rw [if_pos hcond]
    exact h0
  · rw [if_neg hcond]
    have hji : j ≠ i := by
      simp only [Bool.or_eq_true, beq_iff_eq, not_or] at hcond
      exact hcond.1.2
    intro i' e he
    simp only [NeighborHeap.unchecked_push] at he
    by_cases hii : i' = i
    · subst hii
      by_cases hlen : i' < h.rows.length
      · rw [List.getD_eq_getElem?_getD, List.getElem?_set_self
          (by simpa using hlen)] at he
        simp only [Option.getD_some] at he
        rcases mem_replaceFirstAt he with h1 | h1
        · exact h0 i' e h1
        · rw [h1]; exact hji
      · rw [List.set_eq_of_length_le (by omega)] at he
        exact h0 i' e he
    · rw [List.getD_eq_getElem?_getD,
        List.getElem?_set_ne (fun hh => hii hh.symm),
        ← List.getD_eq_getElem?_getD] at he
      exact h0 i' e he

/-- A symmetric pair push preserves the no-self-loop property. -/
theorem NoSelfLoop.checked_push_pair {h : NeighborHeap} (h0 : NoSelfLoop h)
    (i : Nat) (d : RDist) (j : Nat) (f : Bool) :
    NoSelfLoop (h.checked_push_pair i d j f).1 := by
  simp only [NeighborHeap.checked_push_pair]
  by_cases hij : (i == j) = true
  · rw [if_pos hij]
    exact h0.checked_push i d j f
  · rw [if_neg hij]
    exact (h0.checked_push i d j f).checked_push j d i f

/-- An abstract sequence of graph-updater pushes: single (query-style)
pushes and symmetric pair pushes, both through `checked_push`; the pair
pushes cover the pairs generated by `local_join`, including `(p, p)`. -/
inductive PushOp where
  | single (i : Nat) (d : RDist) (j : Nat) (f : Bool)
  | pair (i : Nat) (d : RDist) (j : Nat) (f : Bool)
deriving DecidableEq, Repr

/-- Apply a sequence of checked pushes to a heap. -/
def applyPushOps (h : NeighborHeap) : List PushOp → NeighborHeap
  | [] => h
  | PushOp.single i d j f :: ops => applyPushOps (h.checked_push i d j f).1 ops
  | PushOp.pair i d j f :: ops =>
    applyPushOps (h.checked_push_pair i d j f).1 ops

/-- A fresh heap has no self-loops as long as its row count does not
exceed the sentinel (always true for a 64-bit `size_t`). -/
theorem noSelfLoop_mkHeap (n k : Nat) (hn : n ≤ NPOS) :
    NoSelfLoop (mkHeap n k) := by
  intro i e he
  simp only [mkHeap] at he
  by_cases hi : i < n
  · rw [List.getD_eq_getElem?_getD, List.getElem?_replicate] at he
    simp only [hi, if_true, Option.getD_some] at he
    have hee := List.eq_of_mem_replicate he
    rw [hee]
    simp only [emptyEntry]
    omega
  · rw [List.getD_eq_getElem?_getD, List.getElem?_replicate] at he
    simp [hi] at he

/-- The no-self-loop property is preserved by any sequence of checked
pushes. -/
theorem NoSelfLoop.applyPushOps {h : NeighborHeap} (h0 : NoSelfLoop h)
    (ops : List PushOp) : NoSelfLoop (applyPushOps h ops) := by
  induction ops generalizing h with
  | nil => exact h0
  | cons op ops ih =>
    cases op with
    | single i d j f => exact ih (h0.checked_push i d j f)
    | pair i d j f => exact ih (h0.checked_push_pair i d j f)

/-- C2 (corrected, counterexample): `SetHeap::add_pair(0, 0, flag)` on a
fresh one-point heap inserts index 0 into row 0 through `unchecked_push`
(the first push of `add_pair` has no `i != j` guard), so the no-self-loop
invariant does not survive `SetHeap::add_pair` pushes. -/
theorem setheap_add_pair_creates_self_loop :
    ((SetHeap.add_pair (fun _ _ => 0) ⟨mkHeap 1 1, [], 0⟩ 0 0
          true).1.neighbor_heap.containsIdx 0 0 = true) ∧
      ¬ NoSelfLoop (SetHeap.add_pair (fun _ _ => 0) ⟨mkHeap 1 1, [], 0⟩ 0 0
          true).1.neighbor_heap := by
  constructor
  · with_unfolding_all decide
  · intro hns
    refine hns 0 ⟨0, RDist.fin 0, true⟩ ?_ rfl
    with_unfolding_all decide

/-- C2 (amended): for every sequence of graph-updater pushes that go
through `checked_push` / `checked_push_pair` — which covers the updater
pushes issued during local join, including the `(p, p)` pairs arising at
`j = k` — applied to a fresh heap, point `i` never appears as a neighbor
index in row `i`; the exception forced by the counterexample is
`SetHeap::add_pair`, whose first `unchecked_push` lacks the `i != j`
guard. -/
theorem checked_pushes_no_self_loop (n k : Nat) (hn : n ≤ NPOS)
    (ops : List PushOp) : NoSelfLoop (applyPushOps (mkHeap n k) ops) :=
  (noSelfLoop_mkHeap n k hn).applyPushOps ops

/-- C2 (witness): a concrete push sequence — including the self pair
`(0, 0)` — leaves the fresh two-point heap free of self-loops. -/
theorem checked_pushes_no_self_loop_witness :
    NoSelfLoop (applyPushOps (mkHeap 2 1)
      [PushOp.pair 0 (RDist.fin 1) 1 true,
        PushOp.pair 0 (RDist.fin 0) 0 true,
        PushOp.single 1 (RDist.fin 0) 1 true]) :=
  checked_pushes_no_self_loop 2 1 (by decide) _

/-- A concrete current graph with an underfilled row: slot 1 of row 0
holds the `(NPOS, +inf, 0)` sentinel. -/
def underfilledHeap : NeighborHeap :=
  ⟨2, [[⟨1, RDist.fin 1, true⟩, emptyEntry]]⟩

/-- C9 (confirmed): when row `i` of the current graph is underfilled
(slot `j` holds the sentinel `NPOS` with flag 0), the i/j loops of
`build_candidates_full` issue `checked_push_pair(i, d, NPOS, 0)` towards
the old-candidate heap (the `isn = 0` branch) with no `NPOS` guard, and
that pair call attempts a `checked_push` into row `NPOS`. -/
theorem build_candidates_full_pushes_npos
    (cur : NeighborHeap) (cp : CandPriority) (i j : Nat)
    (hi : i < cur.rows.length) (hj : j < cur.n_nbrs)
    (hidx : cur.index i j = NPOS) (hflag : cur.flagAt i j = false) :
    (⟨i, cp cur i j, NPOS, false⟩ : CandPush) ∈ candidate_pushes cur cp ∧
      ∀ (h : NeighborHeap) (d : RDist) (f : Bool), i ≠ NPOS →
        (h.checked_push_pair i d NPOS f).1
          = ((h.checked_push i d NPOS f).1.checked_push NPOS d i f).1 := by
  constructor
  · unfold candidate_pushes
    rw [List.mem_flatMap]
    refine ⟨i, List.mem_range.mpr hi, ?_⟩
    rw [List.mem_map]
    refine ⟨j, List.mem_range.mpr hj, ?_⟩
    rw [hidx, hflag]
  · intro h d f hin
    simp only [NeighborHeap.checked_push_pair]
    rw [if_neg (by simpa using hin)]

/-- C9 (witness): the sentinel pair push is issued for the concrete
underfilled heap, and the pair call targets row `NPOS`. -/
theorem build_candidates_full_pushes_npos_witness :
    (⟨0, rankedPriority underfilledHeap 0 1, NPOS, false⟩ : CandPush)
        ∈ candidate_pushes underfilledHeap rankedPriority ∧
      ∀ (h : NeighborHeap) (d : RDist) (f : Bool), 0 ≠ NPOS →
        (h.checked_push_pair 0 d NPOS f).1
          = ((h.checked_push 0 d NPOS f).1.checked_push NPOS d 0 f).1 :=
  build_candidates_full_pushes_npos underfilledHeap rankedPriority 0 1
    (by decide) (by decide) (by with_unfolding_all decide)
    (by with_unfolding_all decide)

/-- The block ranges visited by the while loop of `batch_parallel_for`:
from `b`, blocks of size `bs` clamped to `n` (empty when `bs = 0`, where
the C++ loop would never advance). -/
def chunkList (bs b n : Nat) : List (Nat × Nat) :=
  if h : n ≤ b ∨ bs = 0 then []
  else (b, min (b + bs) n) :: chunkList bs (b + bs) n
termination_by n - b
decreasing_by
  rcases Nat.lt_or_ge b n with h1 | h1
  · omega
  · exact absurd (Or.inl h1) h

/-- Fold a worker over a list of block ranges
(`RcppParallel::parallelFor` invocations, one block at a time). -/
def blockFold {σ : Type} (work : σ → Nat → Nat → σ) (s : σ)
    (blocks : List (Nat × Nat)) : σ :=
  blocks.foldl (fun a p => work a p.1 p.2) s

/-- The while loop of `rnn_parallel.h:batch_parallel_for` (lines 36-50):
dispatch the block, update progress, check for interruption, and stop at
the first `true`; `intr t` is the result of the `t`-th
`check_interrupt()` call.  Returns the final state and the dispatched
blocks. -/
def bpfLoop {σ : Type} (work : σ → Nat → Nat → σ) (intr : Nat → Bool)
    (s : σ) (bs b t n : Nat) : σ × List (Nat × Nat) :=
  if h : n ≤ b ∨ bs = 0 then (s, [])
  else
    let e := min (b + bs) n
    let s1 := work s b e
    if intr t then (s1, [(b, e)])
    else
      let r := bpfLoop work intr s1 bs (b + bs) (t + 1) n
      (r.1, (b, e) :: r.2)
termination_by n - b
decreasing_by
  rcases Nat.lt_or_ge b n with h1 | h1
  · omega
  · exact absurd (Or.inl h1) h

/-- From `rnn_parallel.h` lines 29-52 (`batch_parallel_for`): when
`n <= block_size` run a single `parallelFor` over `[0, n)` with no
interrupt check at all; otherwise run the block loop. -/
def batch_parallel_for {σ : Type} (work : σ → Nat → Nat → σ)
    (intr : Nat → Bool) (s : σ) (n bs : Nat) : σ × List (Nat × Nat) :=
  if n ≤ bs then (work s 0 n, [(0, n)])
  else bpfLoop work intr s bs 0 0 n

/-- The number of blocks the loop dispatches: one more than the number of
leading `false` interrupt checks, capped at the total block count. -/
def dispatchCount (intr : Nat → Bool) (t len : Nat) : Nat :=
  min len (((List.range len).takeWhile (fun k => !intr (t + k))).length + 1)

/-- From `rrand_init_parallel.h` lines 116-129: the same while loop, but
the result of `progress.check_interrupt()` is discarded, so the loop
always advances to the next block. -/
def rrandLoop {σ : Type} (work : σ → Nat → Nat → σ) (intr : Nat → Bool)
    (s : σ) (bs b t n : Nat) : σ × List (Nat × Nat) :=
  if h : n ≤ b ∨ bs = 0 then (s, [])
  else
    let e := min (b + bs) n
    let s1 := work s b e
    let _ := intr t
    let r := rrandLoop work intr s1 bs (b + bs) (t + 1) n
    (r.1, (b, e) :: r.2)
termination_by n - b
decreasing_by
  rcases Nat.lt_or_ge b n with h1 | h1
  · omega
  · exact absurd (Or.inl h1) h

/-- From `rrand_init_parallel.h` lines 105-130 (`batch_parallel_for`, the
copy used by the random-initialization driver): single `parallelFor` when
`n <= min_batch`, otherwise the non-stopping block loop. -/
def rrand_batch_parallel_for {σ : Type} (work : σ → Nat → Nat → σ)
    (intr : Nat → Bool) (s : σ) (n bs : Nat) : σ × List (Nat × Nat) :=
  if n ≤ bs then (work s 0 n, [(0, n)])
  else rrandLoop work intr s bs 0 0 n

/-- Dispatch count when the first interrupt check fires: exactly one block
is dispatched. -/
theorem dispatchCount_stop (intr : Nat → Bool) (t L : Nat)
    (h : intr t = true) : dispatchCount intr t (L + 1) = 1 := by
  unfold dispatchCount
  rw [List.range_succ_eq_map, List.takeWhile_cons]
  simp [h]

/-- Dispatch count when the first interrupt check passes: one block plus
the dispatch count of the remaining loop. -/
theorem dispatchCount_step (intr : Nat → Bool) (t L : Nat)
    (h : intr t = false) :
    dispatchCount intr t (L + 1) = dispatchCount intr (t + 1) L + 1 := by
  unfold dispatchCount
  rw [List.range_succ_eq_map, List.takeWhile_cons]
  simp only [Nat.add_zero, h, Bool.not_false, if_true, List.takeWhile_map,
    List.length_cons, List.length_map]
  have harith : ∀ k, (t + Nat.succ k) = (t + 1) + k := by omega
  have hfun :
      ((fun k => !intr (t + k)) ∘ Nat.succ) = fun k => !intr ((t + 1) + k) := by
    funext k
    simp only [Function.comp]
    rw [harith k]
  rw [hfun]
  have hlen := ((List.range L).takeWhile_sublist
    (fun k => !intr ((t + 1) + k))).length_le
  rw [List.length_range] at hlen
  omega

/-- Characterization of the interruptible block loop: it dispatches the
prefix of the block list up to (and including) the first block whose
interrupt check fires, and folds the worker over exactly that prefix. -/
theorem bpfLoop_eq {σ : Type} (work : σ → Nat → Nat → σ)
    (intr : Nat → Bool) (s : σ) (bs b t n : Nat) (hbs : bs ≠ 0) :
    bpfLoop work intr s bs b t n =
      (blockFold work s ((chunkList bs b n).take
          (dispatchCount intr t (chunkList bs b n).length)),
        (chunkList bs b n).take
          (dispatchCount intr t (chunkList bs b n).length)) := by
  by_cases hb : n ≤ b
  · rw [bpfLoop, chunkList]
    simp [hb, dispatchCount, blockFold]
  · have hcond : ¬(n ≤ b ∨ bs = 0) := by
      intro hh
      rcases hh with hh | hh
      · exact hb hh
      · exact hbs hh
    rw [bpfLoop, chunkList, dif_neg hcond, dif_neg hcond]
    by_cases hit : intr t
    · simp only [hit, if_true, List.length_cons,
        dispatchCount_stop intr t _ hit, List.take_succ_cons, List.take_zero]
      simp [blockFold]
    · have hit2 : intr t = false := by simpa using hit
      have IH := bpfLoop_eq work intr (work s b (min (b + bs) n)) bs
        (b + bs) (t + 1) n hbs
      simp only [hit2, Bool.false_eq_true, if_false, List.length_cons,
        dispatchCount_step intr t _ hit2, List.take_succ_cons]
      rw [IH]
      simp [blockFold]
termination_by n - b
decreasing_by omega

/-- Every position strictly inside the `takeWhile` prefix satisfies the
predicate. -/
theorem takeWhile_pred_of_lt {α : Type} {p : α → Bool} (d : α) :
    ∀ {l : List α} {u : Nat}, u < (l.takeWhile p).length →
      p (l.getD u d) = true
  | [], u, h => by simp at h
  | a :: l, u, h => by
    by_cases hpa : p a
    · cases u with
      | zero => simpa using hpa
      | succ v =>
        rw [List.takeWhile_cons_of_pos hpa, List.length_cons,
          Nat.succ_lt_succ_iff] at h
        rw [List.getD_cons_succ]
        exact takeWhile_pred_of_lt d h
    · rw [List.takeWhile_cons_of_neg hpa] at h
      simp at h

/-- The element just past the `takeWhile` prefix (when one exists) fails
the predicate. -/
theorem takeWhile_pred_at_length {α : Type} {p : α → Bool} (d : α) :
    ∀ {l : List α}, (l.takeWhile p).length < l.length →
      p (l.getD (l.takeWhile p).length d) = false
  | [], h => by simp at h
  | a :: l, h => by
    by_cases hpa : p a
    · rw [List.takeWhile_cons_of_pos hpa, List.length_cons,
        List.length_cons] at h
      have h2 : (List.takeWhile p l).length < l.length := by omega
      rw [List.takeWhile_cons_of_pos hpa, List.length_cons,
        List.getD_cons_succ]
      exact takeWhile_pred_at_length d h2
    · rw [List.takeWhile_cons_of_neg hpa]
      simp only [List.length_nil, List.getD_cons_zero]
      simpa using hpa

/-- Reading position `u < L` of `List.range L` with a default gives `u`. -/
theorem getD_range {L u : Nat} (h : u < L) :
    (List.range L).getD u 0 = u := by
  rw [List.getD_eq_getElem?_getD, List.getElem?_range h]
  rfl

/-- If the dispatch count is below the block count, the interrupt check
after the last dispatched block returned `true`. -/
theorem dispatchCount_lt_imp_intr (intr : Nat → Bool) (L : Nat)
    (h : dispatchCount intr 0 L < L) :
    intr (dispatchCount intr 0 L - 1) = true := by
  unfold dispatchCount at h ⊢
  set W := ((List.range L).takeWhile (fun k => !intr (0 + k))).length with hW
  have hWlen : W ≤ L := by
    have hsub := ((List.range L).takeWhile_sublist
      (fun k => !intr (0 + k))).length_le
    rw [List.length_range] at hsub
    omega
  have hWL : W + 1 < L := by omega
  have hmin : min L (W + 1) = W + 1 := by omega
  rw [hmin] at h ⊢
  simp only [Nat.add_sub_cancel]
  have hWlt : W < (List.range L).length := by rw [List.length_range]; omega
  have hpred := takeWhile_pred_at_length (p := fun k => !intr (0 + k)) 0
    (l := List.range L) (by rw [← hW]; exact hWlt)
  rw [← hW, getD_range (by omega)] at hpred
  simp only [Bool.not_eq_false] at hpred
  simpa using hpred

/-- Every interrupt check strictly before the last dispatched block
returned `false`. -/
theorem dispatchCount_pred_false (intr : Nat → Bool) (L u : Nat)
    (h : u + 1 < dispatchCount intr 0 L) : intr u = false := by
  unfold dispatchCount at h
  set W := ((List.range L).takeWhile (fun k => !intr (0 + k))).length with hW
  have hu : u < W := by omega
  have huL : u < L := by omega
  have hpred := takeWhile_pred_of_lt (p := fun k => !intr (0 + k)) 0
    (l := List.range L) (u := u) (by rw [← hW]; exact hu)
  rw [getD_range huL] at hpred
  simp only [Bool.not_eq_true'] at hpred
  simpa using hpred

/-- C6 (confirmed): in `batch_parallel_for`, cancellation is observed only
at block boundaries.  When `n ≤ block_size` the whole range is one
`parallelFor` and the interrupt function is never consulted (the result is
the same for every interrupt schedule); otherwise the dispatched blocks
are exactly the prefix of the block list ending at the first `true`
interrupt check (every earlier check returned `false`, and if the loop
stopped early the last check returned `true`), no block after that prefix
is dispatched and no block is cut short, and the returned partial state is
the worker folded over exactly the dispatched blocks. -/
theorem batch_parallel_for_cancellation {σ : Type}
    (work : σ → Nat → Nat → σ) (intr : Nat → Bool) (s : σ) (n bs : Nat)
    (hbs : bs ≠ 0) :
    (n ≤ bs →
      (∀ intr2 : Nat → Bool,
        batch_parallel_for work intr2 s n bs = (work s 0 n, [(0, n)]))) ∧
    (bs < n →
      (batch_parallel_for work intr s n bs).2
          = (chunkList bs 0 n).take
              (dispatchCount intr 0 (chunkList bs 0 n).length) ∧
        (batch_parallel_for work intr s n bs).1
          = blockFold work s (batch_parallel_for work intr s n bs).2 ∧
        (∀ u, u + 1 < dispatchCount intr 0 (chunkList bs 0 n).length →
          intr u = false) ∧
        (dispatchCount intr 0 (chunkList bs 0 n).length
            < (chunkList bs 0 n).length →
          intr (dispatchCount intr 0 (chunkList bs 0 n).length - 1)
            = true)) := by
  constructor
  · intro hn intr2
    rw [batch_parallel_for, if_pos hn]
  · intro hn
    have hnb : ¬ n ≤ bs := by omega
    rw [batch_parallel_for, if_neg hnb, bpfLoop_eq work intr s bs 0 0 n hbs]
    refine ⟨rfl, rfl, ?_, ?_⟩
    · intro u hu
      exact dispatchCount_pred_false intr (chunkList bs 0 n).length u hu
    · intro hlt
      exact dispatchCount_lt_imp_intr intr (chunkList bs 0 n).length hlt

/-- A concrete worker for driver witnesses: count processed items. -/
def countWork (s : Nat) (b e : Nat) : Nat := s + (e - b)

/-- A concrete interrupt schedule: fire at the second check. -/
def intrAtOne (t : Nat) : Bool := t == 1

/-- C6 (witness): the cancellation characterization applied to a concrete
run (`n = 10`, `block_size = 3`, interrupt at the second check). -/
theorem batch_parallel_for_cancellation_witness :
    ((10 : Nat) ≤ 3 →
      (∀ intr2 : Nat → Bool,
        batch_parallel_for countWork intr2 0 10 3 = (countWork 0 0 10, [(0, 10)]))) ∧
    ((3 : Nat) < 10 →
      (batch_parallel_for countWork intrAtOne 0 10 3).2
          = (chunkList 3 0 10).take
              (dispatchCount intrAtOne 0 (chunkList 3 0 10).length) ∧
        (batch_parallel_for countWork intrAtOne 0 10 3).1
          = blockFold countWork 0 (batch_parallel_for countWork intrAtOne 0 10 3).2 ∧
        (∀ u, u + 1 < dispatchCount intrAtOne 0 (chunkList 3 0 10).length →
          intrAtOne u = false) ∧
        (dispatchCount intrAtOne 0 (chunkList 3 0 10).length
            < (chunkList 3 0 10).length →
          intrAtOne (dispatchCount intrAtOne 0 (chunkList 3 0 10).length - 1)
            = true)) :=
  batch_parallel_for_cancellation countWork intrAtOne 0 10 3 (by decide)

/-- The non-stopping block loop of `rrand_init_parallel.h` dispatches every
block and folds the worker over all of them, for every interrupt
schedule. -/
theorem rrandLoop_eq {σ : Type} (work : σ → Nat → Nat → σ)
    (intr : Nat → Bool) (s : σ) (bs b t n : Nat) (hbs : bs ≠ 0) :
    rrandLoop work intr s bs b t n =
      (blockFold work s (chunkList bs b n), chunkList bs b n) := by
  by_cases hb : n ≤ b
  · rw [rrandLoop, chunkList]
    simp [hb, blockFold]
  · have hcond : ¬(n ≤ b ∨ bs = 0) := by
      intro hh
      rcases hh with hh | hh
      · exact hb hh
      · exact hbs hh
    rw [rrandLoop, chunkList, dif_neg hcond, dif_neg hcond]
    have IH := rrandLoop_eq work intr (work s b (min (b + bs) n)) bs
      (b + bs) (t + 1) n hbs
    show ((rrandLoop work intr (work s b (min (b + bs) n)) bs (b + bs)
          (t + 1) n).1,
        (b, min (b + bs) n) :: (rrandLoop work intr
          (work s b (min (b + bs) n)) bs (b + bs) (t + 1) n).2)
      = (blockFold work s ((b, min (b + bs) n) :: chunkList bs (b + bs) n),
        (b, min (b + bs) n) :: chunkList bs (b + bs) n)
    rw [IH]
    simp [blockFold]
termination_by n - b
decreasing_by omega

/-- The block list covers every point of `[b, n)`. -/
theorem chunkList_covers (bs : Nat) (hbs : bs ≠ 0) :
    ∀ b n m : Nat, b ≤ m → m < n →
      ∃ p ∈ chunkList bs b n, p.1 ≤ m ∧ m < p.2 := by
  intro b n m hbm hmn
  rw [chunkList, dif_neg (by omega)]
  by_cases hin : m < min (b + bs) n
  · exact ⟨(b, min (b + bs) n), List.mem_cons_self _ _, hbm, hin⟩
  · have hnext : b + bs ≤ m := by omega
    obtain ⟨p, hp, hp1, hp2⟩ := chunkList_covers bs hbs (b + bs) n m hnext hmn
    exact ⟨p, List.mem_cons_of_mem _ hp, hp1, hp2⟩
termination_by b n => n - b
decreasing_by omega

/-- C10 (confirmed): the `batch_parallel_for` copy in
`rrand_init_parallel.h` discards the boolean returned by
`progress.check_interrupt()`, so for every input with `n > min_batch` the
loop dispatches every block of `[0, n)` (the blocks cover the whole
range), the result is the worker folded over all blocks, and the outcome
is identical under every interrupt schedule: cancellation never stops this
driver early. -/
theorem rrand_batch_parallel_for_ignores_interrupt {σ : Type}
    (work : σ → Nat → Nat → σ) (intr intr2 : Nat → Bool) (s : σ)
    (n bs : Nat) (hbs : bs ≠ 0) (hn : bs < n) :
    rrand_batch_parallel_for work intr s n bs
        = (blockFold work s (chunkList bs 0 n), chunkList bs 0 n) ∧
      rrand_batch_parallel_for work intr s n bs
        = rrand_batch_parallel_for work intr2 s n bs ∧
      (∀ m, m < n →
        ∃ p ∈ (rrand_batch_parallel_for work intr s n bs).2,
          p.1 ≤ m ∧ m < p.2) := by
  have hnb : ¬ n ≤ bs := by omega
  have h1 := rrandLoop_eq work intr s bs 0 0 n hbs
  have h2 := rrandLoop_eq work intr2 s bs 0 0 n hbs
  refine ⟨?_, ?_, ?_⟩
  · rw [rrand_batch_parallel_for, if_neg hnb, h1]
  · rw [rrand_batch_parallel_for, if_neg hnb, h1,
      rrand_batch_parallel_for, if_neg hnb, h2]
  · intro m hm
    rw [rrand_batch_parallel_for, if_neg hnb, h1]
    exact chunkList_covers bs hbs 0 n m (Nat.zero_le m) hm

/-- C10 (witness): a concrete run (`n = 10`, `min_batch = 3`) under an
interrupt schedule that fires at every check still dispatches all blocks
and matches the never-interrupted run. -/
theorem rrand_batch_parallel_for_ignores_interrupt_witness :
    rrand_batch_parallel_for countWork (fun _ => true) 0 10 3
        = (blockFold countWork 0 (chunkList 3 0 10), chunkList 3 0 10) ∧
      rrand_batch_parallel_for countWork (fun _ => true) 0 10 3
        = rrand_batch_parallel_for countWork (fun _ => false) 0 10 3 ∧
      (∀ m, m < 10 →
        ∃ p ∈ (rrand_batch_parallel_for countWork (fun _ => true) 0 10 3).2,
          p.1 ≤ m ∧ m < p.2) :=
  rrand_batch_parallel_for_ignores_interrupt countWork (fun _ => true)
    (fun _ => false) 0 10 3 (by decide) (by decide)

/-- Row-major traversal order of an `n_points x n_nbrs` matrix, as the
nested i/j loops of `r_to_heap` visit it. -/
def rowMajorPairs (np nn : Nat) : List (Nat × Nat) :=
  (List.range np).flatMap (fun i => (List.range nn).map (fun j => (i, j)))

/-- Membership in the row-major traversal. -/
theorem mem_rowMajorPairs {np nn i j : Nat} :
    (i, j) ∈ rowMajorPairs np nn ↔ i < np ∧ j < nn := by
  unfold rowMajorPairs
  rw [List.mem_flatMap]
  constructor
  · rintro ⟨a, ha, hmem⟩
    rw [List.mem_map] at hmem
    obtain ⟨b, hb, hpair⟩ := hmem
    obtain ⟨rfl, rfl⟩ := Prod.mk.injEq .. ▸ hpair
    cases hpair
    exact ⟨List.mem_range.mp ha, List.mem_range.mp hb⟩
  · rintro ⟨hi, hj⟩
    exact ⟨i, List.mem_range.mpr hi,
      List.mem_map.mpr ⟨j, List.mem_range.mpr hj, rfl⟩⟩

/-- Short-circuit behaviour of the guarded `Except` fold: it is an error
exactly when some element fails the guard, and with no failing element it
is the plain fold. -/
theorem foldlM_guard_spec {α σ : Type} (bad : α → Bool) (f : σ → α → σ)
    (msg : String) :
    ∀ (L : List α) (s : σ),
      ((L.foldlM (fun s2 a =>
            if bad a then Except.error msg else Except.ok (f s2 a)) s
          = Except.error msg) ↔ ∃ a ∈ L, bad a = true) ∧
      ((∀ a ∈ L, bad a = false) →
        L.foldlM (fun s2 a =>
            if bad a then Except.error msg else Except.ok (f s2 a)) s
          = Except.ok (L.foldl f s))
  | [], s => by
    refine ⟨?_, ?_⟩
    · constructor
      · intro hcontra
        exact absurd hcontra (by intro hh; cases hh)
      · rintro ⟨a, ha, _⟩
        simp at ha
    · intro _
      rfl
  | a :: L, s => by
    have hcons : ∀ (s2 : σ),
        (a :: L).foldlM (fun s3 b =>
            if bad b then Except.error msg else Except.ok (f s3 b)) s2
          = ((if bad a then Except.error msg else Except.ok (f s2 a))
              >>= fun s4 => L.foldlM (fun s3 b =>
                if bad b then Except.error msg else Except.ok (f s3 b)) s4) :=
      fun _ => rfl
    by_cases hba : bad a
    · refine ⟨?_, ?_⟩
      · constructor
        · intro _
          exact ⟨a, List.mem_cons_self _ _, hba⟩
        · intro _
          rw [hcons, if_pos hba]
          rfl
      · intro hall
        exact absurd (hall a (List.mem_cons_self _ _)) (by simp [hba])
    · have hba2 : bad a = false := by simpa using hba
      refine ⟨?_, ?_⟩
      · rw [hcons, if_neg hba]
        have hbind : ((Except.ok (f s a) : Except String σ)
            >>= fun s4 => L.foldlM (fun s3 b =>
              if bad b then Except.error msg else Except.ok (f s3 b)) s4)
            = L.foldlM (fun s3 b =>
              if bad b then Except.error msg else Except.ok (f s3 b))
              (f s a) := rfl
        rw [hbind, (foldlM_guard_spec bad f msg L (f s a)).1]
        constructor
        · rintro ⟨b, hb, hbad⟩
          exact ⟨b, List.mem_cons_of_mem _ hb, hbad⟩
        · rintro ⟨b, hb, hbad⟩
          rcases List.mem_cons.mp hb with rfl | hb2
          · exact absurd hbad (by simp [hba2])
          · exact ⟨b, hb2, hbad⟩
      · intro hall
        rw [hcons, if_neg hba]
        have hbind : ((Except.ok (f s a) : Except String σ)
            >>= fun s4 => L.foldlM (fun s3 b =>
              if bad b then Except.error msg else Except.ok (f s3 b)) s4)
            = L.foldlM (fun s3 b =>
              if bad b then Except.error msg else Except.ok (f s3 b))
              (f s a) := rfl
        rw [hbind, (foldlM_guard_spec bad f msg L (f s a)).2
          (fun b hb => hall b (List.mem_cons_of_mem _ hb))]
        rfl

/-- From `rnn.h` lines 131-147 (`r_to_heap<HeapAdd>`): walk the initial
index/distance matrices row-major; an entry `k < 0` or `k > max_idx`
aborts the call with the fatal error `"Bad indexes in input"`, every other
entry is pushed through the `HeapAdd` policy. -/
def r_to_heap (hadd : NeighborHeap → Nat → Nat → RDist → NeighborHeap)
    (g : NeighborHeap) (idx : List (List Int)) (dist : List (List ℚ))
    (max_idx : Int) : Except String NeighborHeap :=
  (rowMajorPairs idx.length (idx.headD []).length).foldlM
    (fun acc p =>
      if decide ((idx.getD p.1 []).getD p.2 0 < 0
          ∨ max_idx < (idx.getD p.1 []).getD p.2 0) then
        Except.error "Bad indexes in input"
      else
        Except.ok (hadd acc p.1 ((idx.getD p.1 []).getD p.2 0).toNat
          (RDist.fin ((dist.getD p.1 []).getD p.2 0))))
    g


/-- C7 (confirmed): `r_to_heap` aborts with the fatal error
`"Bad indexes in input"` exactly when the initial index matrix contains an
entry `k < 0` or `k > max_idx` (the monadic fold stops at the first bad
entry, so nothing after it is processed), and when every entry is in range
the result is exactly the row-major fold of `HeapAdd` pushes over all
entries. -/
theorem r_to_heap_spec (hadd : NeighborHeap → Nat → Nat → RDist → NeighborHeap)
    (g : NeighborHeap) (idx : List (List Int)) (dist : List (List ℚ))
    (max_idx : Int) :
    ((r_to_heap hadd g idx dist max_idx
        = Except.error "Bad indexes in input") ↔
      ∃ i, i < idx.length ∧ ∃ j, j < (idx.headD []).length ∧
        ((idx.getD i []).getD j 0 < 0
          ∨ max_idx < (idx.getD i []).getD j 0)) ∧
    ((∀ i, i < idx.length → ∀ j, j < (idx.headD []).length →
        0 ≤ (idx.getD i []).getD j 0
          ∧ (idx.getD i []).getD j 0 ≤ max_idx) →
      r_to_heap hadd g idx dist max_idx
        = Except.ok ((rowMajorPairs idx.length (idx.headD []).length).foldl
            (fun acc p => hadd acc p.1 ((idx.getD p.1 []).getD p.2 0).toNat
              (RDist.fin ((dist.getD p.1 []).getD p.2 0))) g)) := by
  have H := foldlM_guard_spec
    (fun p : Nat × Nat => decide ((idx.getD p.1 []).getD p.2 0 < 0
      ∨ max_idx < (idx.getD p.1 []).getD p.2 0))
    (fun acc p => hadd acc p.1 ((idx.getD p.1 []).getD p.2 0).toNat
      (RDist.fin ((dist.getD p.1 []).getD p.2 0)))
    "Bad indexes in input"
    (rowMajorPairs idx.length (idx.headD []).length) g
  constructor
  · refine Iff.trans ?_ (Iff.trans H.1 ?_)
    · exact Iff.of_eq rfl
    · constructor
      · rintro ⟨⟨i, j⟩, hmem, hbad⟩
        obtain ⟨hi, hj⟩ := mem_rowMajorPairs.mp hmem
        exact ⟨i, hi, j, hj, of_decide_eq_true hbad⟩
      · rintro ⟨i, hi, j, hj, hP⟩
        exact ⟨(i, j), mem_rowMajorPairs.mpr ⟨hi, hj⟩, decide_eq_true hP⟩
  · intro hok
    refine Eq.trans (Eq.refl _) (H.2 ?_)
    rintro ⟨i, j⟩ hmem
    obtain ⟨hi, hj⟩ := mem_rowMajorPairs.mp hmem
    have hr := hok i hi j hj
    simp only [decide_eq_false_iff_not, not_or, not_lt]
    omega

/-- The in-range index matrix used by the loader witness. -/
def goodIdxMat : List (List Int) := [[0, 1]]

/-- The out-of-range index matrix used by the loader witness. -/
def badIdxMat : List (List Int) := [[0, 5]]

/-- C7 (witness): a matrix with the out-of-range entry 5 (max_idx 3)
aborts with the fatal error; the in-range matrix is loaded as the fold of
symmetric pushes. -/
theorem r_to_heap_spec_witness :
    (r_to_heap heapAddSymmetric (mkHeap 1 2) badIdxMat [[1, 2]] 3
        = Except.error "Bad indexes in input") ∧
      r_to_heap heapAddSymmetric (mkHeap 1 2) goodIdxMat [[1, 2]] 3
        = Except.ok ((rowMajorPairs 1 2).foldl
            (fun acc p => heapAddSymmetric acc p.1
              ((goodIdxMat.getD p.1 []).getD p.2 0).toNat
              (RDist.fin (([[1, 2]].getD p.1 []).getD p.2 0)))
            (mkHeap 1 2)) := by
  constructor
  · exact (r_to_heap_spec heapAddSymmetric (mkHeap 1 2) badIdxMat [[1, 2]]
      3).1.mpr ⟨0, by decide, 1, by decide, Or.inr (by decide)⟩
  · refine Eq.trans ((r_to_heap_spec heapAddSymmetric (mkHeap 1 2) goodIdxMat
      [[1, 2]] 3).2 ?_) ?_
    · intro i hi j hj
      simp only [goodIdxMat, List.length_cons, List.length_nil,
        List.headD_cons] at hi hj
      have hi0 : i = 0 := by omega
      have hj01 : j = 0 ∨ j = 1 := by omega
      subst hi0
      rcases hj01 with rfl | rfl
      · exact ⟨by decide, by decide⟩
      · exact ⟨by decide, by decide⟩
    · rfl

/-- Clear the new/old flag of an entry, keeping index and distance. -/
def clearEntryFlag (e : Entry) : Entry := ⟨e.idx, e.dist, false⟩

/-- Clear the flag of slot `(i, j)` (`current_graph.flags[ij] = 0`). -/
def NeighborHeap.clearFlagAt (h : NeighborHeap) (i j : Nat) : NeighborHeap :=
  let row := h.rows.getD i []
  ⟨h.n_nbrs, h.rows.set i (row.set j (clearEntryFlag (row.getD j emptyEntry)))⟩

/-- One slot of the `build_query_candidates` loops (`nndescent.h` lines
290-300): a flagged slot is pushed into the new-candidate heap and, when
`flag_on_add`, its current-graph flag is cleared at push time. -/
def bqcStep (cp : CandPriority) (foa : Bool)
    (st : NeighborHeap × NeighborHeap) (p : Nat × Nat) :
    NeighborHeap × NeighborHeap :=
  let newC := st.1
  let cur := st.2
  if cur.flagAt p.1 p.2 then
    let d := cp cur p.1 p.2
    let newC2 := (newC.checked_push p.1 d (cur.index p.1 p.2) true).1
    let cur2 := if foa then cur.clearFlagAt p.1 p.2 else cur
    (newC2, cur2)
  else st

/-- From `nndescent.h` lines 281-312 (`build_query_candidates`, serial
overload): walk all slots of the current graph row-major; returns the
new-candidate heap and the (possibly flag-cleared) current graph. -/
def build_query_candidates (cur : NeighborHeap) (cp : CandPriority)
    (newC : NeighborHeap) (foa : Bool) : NeighborHeap × NeighborHeap :=
  (rowMajorPairs cur.rows.length cur.n_nbrs).foldl (bqcStep cp foa) (newC, cur)

/-- From `nndescent.h` lines 235-247 (the candidate phase of each
`nnd_query` iteration): `flag_on_add = max_candidates >= n_nbrs`; build
the new candidates with width `max_candidates`, and when `flag_on_add` is
false run the deferred `flag_retained_new_candidates` post-pass. -/
def query_candidate_phase (cur : NeighborHeap) (cp : CandPriority)
    (mc : Nat) : NeighborHeap × NeighborHeap :=
  let foa := decide (cur.n_nbrs ≤ mc)
  let st := build_query_candidates cur cp (mkHeap cur.rows.length mc) foa
  if foa then st else (st.1, flag_retained_new_candidates st.2 st.1)

/-- From `nndescent.h` lines 265-279 (`build_general_nbrs`): for every
reference point `i` and slot `j`, `checked_push_pair(i, d, ref)` into the
general-neighbor graph, where `ref` is the reference-knn entry; the flat
index `i * n_nbrs + j` is modelled as the pair `(i, j)` and the reference
index matrix as its list of rows. -/
def build_general_nbrs (refIdx : List (List Nat)) (gn : NeighborHeap)
    (cp : CandPriority) (n_nbrs : Nat) : NeighborHeap :=
  (rowMajorPairs refIdx.length n_nbrs).foldl
    (fun acc p =>
      (acc.checked_push_pair p.1 (cp acc p.1 p.2)
        ((refIdx.getD p.1 []).getD p.2 NPOS) true).1)
    gn

/-- The rows a `checked_push_pair(i, d, j)` call pushes into: row `i`,
and row `j` when `i ≠ j`. -/
def pairTargets (i j : Nat) : List (Nat × Nat) :=
  if i == j then [(i, j)] else [(i, j), (j, i)]

/-- The ordered `(row, pushed-index)` list of every `checked_push` issued
by `build_general_nbrs`. -/
def gnPushTargets (refIdx : List (List Nat)) (n_nbrs : Nat) :
    List (Nat × Nat) :=
  (rowMajorPairs refIdx.length n_nbrs).flatMap (fun p =>
    pairTargets p.1 ((refIdx.getD p.1 []).getD p.2 NPOS))

/-- The `build_general_nbrs` loop instrumented with its push targets. -/
def build_general_nbrs_trace (refIdx : List (List Nat)) (gn : NeighborHeap)
    (cp : CandPriority) (n_nbrs : Nat) :
    NeighborHeap × List (Nat × Nat) :=
  (rowMajorPairs refIdx.length n_nbrs).foldl
    (fun acc p =>
      ((acc.1.checked_push_pair p.1 (cp acc.1 p.1 p.2)
          ((refIdx.getD p.1 []).getD p.2 NPOS) true).1,
        acc.2 ++ pairTargets p.1 ((refIdx.getD p.1 []).getD p.2 NPOS)))
    (gn, [])

/-- Modelled from the spec: the state of `non_search_query` — the current
graph, the accepted-update count, the per-query `seen` set of reference
indices (the `NeighborSet` of `graphupdate.h`, which is not in the source
tree: per the spec it records every queried index so that `update(q, r')`
runs only for references not already seen in this query's pass), and the
trace of `generate_and_apply` calls as `(query, reference)` pairs. -/
structure NsqState where
  cur : NeighborHeap
  c : Nat
  seen : List Nat
  calls : List (Nat × Nat)
deriving DecidableEq, Repr

/-- One `(j, k)` step of the `non_search_query` loops (`nndescent.h`
lines 330-343): skip sentinel candidates, skip general neighbors already
seen in this query's pass, otherwise record the reference as seen and
apply the updater (modelled from the spec as the asymmetric query update:
a `checked_push` into the query's row only, since the reference graph is
read-only).  The `continue` on a sentinel candidate `ref` is modelled by
skipping each `(j, k)` pair with that `j`. -/
def nsqStep (dfun : Nat → Nat → ℚ) (newN gn : NeighborHeap) (q : Nat)
    (st : NsqState) (p : Nat × Nat) : NsqState :=
  let ref := newN.index q p.1
  if ref == NPOS then st
  else
    let nbr := gn.index ref p.2
    if nbr == NPOS then st
    else if st.seen.contains nbr then st
    else
      let r := st.cur.checked_push q (RDist.fin (dfun q nbr)) nbr true
      ⟨r.1, st.c + r.2, nbr :: st.seen, st.calls ++ [(q, nbr)]⟩

/-- One query's pass over its candidates and their general neighbors. -/
def nsqPass (dfun : Nat → Nat → ℚ) (newN gn : NeighborHeap) (mc q : Nat)
    (st : NsqState) : NsqState :=
  (rowMajorPairs mc mc).foldl (nsqStep dfun newN gn q) st

/-- From `nndescent.h` lines 317-361 (`non_search_query`, serial
overload): run every query's pass, clearing the `seen` set at each query
boundary (`seen.clear()`). -/
def non_search_query (dfun : Nat → Nat → ℚ) (cur newN gn : NeighborHeap)
    (mc : Nat) : NsqState :=
  (List.range cur.rows.length).foldl
    (fun st q =>
      let r := nsqPass dfun newN gn mc q st
      ⟨r.cur, r.c, [], r.calls⟩)
    ⟨cur, 0, [], []⟩

/-- C4 (corrected, counterexample): `build_general_nbrs` on the reference
knn `[[1],[2],[1]]` (one neighbor per point, `max_candidates = 2`) leaves
index 0 in row 1 of the general-neighbor graph even though row 1 of
`reference_idx` is `[2]`: the `checked_push_pair` also pushes the reverse
entry, so row `i` does not receive only the entries of `reference_idx`
row `i`. -/
theorem build_general_nbrs_not_only_own_row :
    (build_general_nbrs [[1], [2], [1]] (mkHeap 3 2)
        (fun _ _ _ => RDist.fin 1) 1).containsIdx 1 0 = true ∧
      (([[1], [2], [1]] : List (List Nat)).getD 1 []).contains 0 = false := by
  with_unfolding_all decide

/-- Splitting a fold that pairs a state update with an appended trace. -/
theorem foldl_pair_trace {σ β γ : Type} (g : σ → γ → σ) (f : γ → List β) :
    ∀ (L : List γ) (h : σ) (t : List β),
      (L.foldl (fun acc p => (g acc.1 p, acc.2 ++ f p)) (h, t))
        = (L.foldl g h, t ++ L.flatMap f)
  | [], h, t => by simp
  | p :: L, h, t => by
    simp only [List.foldl_cons, List.flatMap_cons]
    rw [foldl_pair_trace g f L (g h p) (t ++ f p)]
    simp [List.append_assoc]

/-- C4 (amended): the pushes issued by `build_general_nbrs` are exactly
`gnPushTargets`: row `r` receives precisely the forward pushes of the
entries of `reference_idx` row `r` together with the reverse pushes
`(r, i)` for every point `i` whose reference row contains `r` (the
pair-push fuses forward and reverse); in particular the heap built by the
instrumented loop is the same heap. -/
theorem build_general_nbrs_push_characterization
    (refIdx : List (List Nat)) (gn : NeighborHeap) (cp : CandPriority)
    (n_nbrs : Nat) (r s : Nat) :
    (build_general_nbrs_trace refIdx gn cp n_nbrs).2
        = gnPushTargets refIdx n_nbrs ∧
      (build_general_nbrs_trace refIdx gn cp n_nbrs).1
        = build_general_nbrs refIdx gn cp n_nbrs ∧
      ((r, s) ∈ gnPushTargets refIdx n_nbrs ↔
        ((r < refIdx.length
            ∧ ∃ j, j < n_nbrs ∧ (refIdx.getD r []).getD j NPOS = s)
          ∨ (s < refIdx.length ∧ r ≠ s
              ∧ ∃ j, j < n_nbrs ∧ (refIdx.getD s []).getD j NPOS = r))) := by
  have hsplit := foldl_pair_trace
    (fun (acc : NeighborHeap) (p : Nat × Nat) =>
      (acc.checked_push_pair p.1 (cp acc p.1 p.2)
        ((refIdx.getD p.1 []).getD p.2 NPOS) true).1)
    (fun p : Nat × Nat =>
      pairTargets p.1 ((refIdx.getD p.1 []).getD p.2 NPOS))
    (rowMajorPairs refIdx.length n_nbrs) gn []
  refine ⟨?_, ?_, ?_⟩
  · rw [build_general_nbrs_trace, hsplit]
    rfl
  · rw [build_general_nbrs_trace, hsplit]
    rfl
  · unfold gnPushTargets
    rw [List.mem_flatMap]
    constructor
    · rintro ⟨⟨i, j⟩, hmem, htgt⟩
      obtain ⟨hi, hj⟩ := mem_rowMajorPairs.mp hmem
      rw [pairTargets] at htgt
      by_cases heq : (i == ((refIdx.getD i []).getD j NPOS)) = true
      · rw [if_pos heq] at htgt
        have h1 := List.mem_singleton.mp htgt
        injection h1 with hr hs
        subst hr
        subst hs
        exact Or.inl ⟨hi, j, hj, rfl⟩
      · rw [if_neg heq] at htgt
        rcases List.mem_cons.mp htgt with h1 | h1
        · injection h1 with hr hs
          subst hr
          subst hs
          exact Or.inl ⟨hi, j, hj, rfl⟩
        · have h2 := List.mem_singleton.mp h1
          injection h2 with hr hs
          subst hr
          subst hs
          refine Or.inr ⟨hi, ?_, j, hj, rfl⟩
          intro hrs
          exact heq (by rw [hrs]; exact beq_self_eq_true _)
    · rintro (⟨hr, j, hj, hentry⟩ | ⟨hs, hrs, j, hj, hentry⟩)
      · refine ⟨(r, j), mem_rowMajorPairs.mpr ⟨hr, hj⟩, ?_⟩
        rw [hentry]
        simp only [pairTargets]
        by_cases heq : (r == s) = true
        · rw [if_pos heq]
          exact List.mem_singleton.mpr rfl
        · rw [if_neg heq]
          exact List.mem_cons_self _ _
      · refine ⟨(s, j), mem_rowMajorPairs.mpr ⟨hs, hj⟩, ?_⟩
        rw [hentry]
        simp only [pairTargets]
        rw [if_neg (by simpa using fun hh => hrs hh.symm)]
        exact List.mem_cons_of_mem _ (List.mem_singleton.mpr rfl)

/-- Within one query's pass, the calls added by the fold are all tagged
with that query, reference each a previously-unseen index, and are
pairwise distinct in their reference component. -/
theorem nsqFold_spec (dfun : Nat → Nat → ℚ) (newN gn : NeighborHeap)
    (q : Nat) :
    ∀ (L : List (Nat × Nat)) (st : NsqState),
      ∃ add : List (Nat × Nat),
        (L.foldl (nsqStep dfun newN gn q) st).calls = st.calls ++ add ∧
          (∀ p ∈ add, p.1 = q ∧ p.2 ∉ st.seen) ∧
          (add.map Prod.snd).Nodup
  | [], st => ⟨[], by simp, by simp, by simp⟩
  | p :: L, st => by
    rw [List.foldl_cons]
    by_cases h1 : (newN.index q p.1 == NPOS) = true
    · simp only [nsqStep]
      rw [if_pos h1]
      exact nsqFold_spec dfun newN gn q L st
    · simp only [nsqStep]
      rw [if_neg h1]
      by_cases h2 : (gn.index (newN.index q p.1) p.2 == NPOS) = true
      · rw [if_pos h2]
        exact nsqFold_spec dfun newN gn q L st
      · rw [if_neg h2]
        by_cases h3 :
            st.seen.contains (gn.index (newN.index q p.1) p.2) = true
        · rw [if_pos h3]
          exact nsqFold_spec dfun newN gn q L st
        · rw [if_neg h3]
          have hnotmem : gn.index (newN.index q p.1) p.2 ∉ st.seen := by
            simpa using h3
          obtain ⟨add, hcalls, hprop, hnodup⟩ :=
            nsqFold_spec dfun newN gn q L
              ⟨(st.cur.checked_push q
                  (RDist.fin (dfun q (gn.index (newN.index q p.1) p.2)))
                  (gn.index (newN.index q p.1) p.2) true).1,
                st.c + (st.cur.checked_push q
                  (RDist.fin (dfun q (gn.index (newN.index q p.1) p.2)))
                  (gn.index (newN.index q p.1) p.2) true).2,
                gn.index (newN.index q p.1) p.2 :: st.seen,
                st.calls ++ [(q, gn.index (newN.index q p.1) p.2)]⟩
          refine ⟨(q, gn.index (newN.index q p.1) p.2) :: add, ?_, ?_, ?_⟩
          · rw [hcalls]
            simp
          · intro p2 hp2
            rcases List.mem_cons.mp hp2 with rfl | hp3
            · exact ⟨rfl, hnotmem⟩
            · obtain ⟨htag, hseen⟩ := hprop p2 hp3
              exact ⟨htag, fun hmem =>
                hseen (List.mem_cons_of_mem _ hmem)⟩
          · rw [List.map_cons, List.nodup_cons]
            constructor
            · intro hmem
              obtain ⟨p2, hp2, hsnd⟩ := List.mem_map.mp hmem
              obtain ⟨_, hseen⟩ := hprop p2 hp2
              exact hseen (hsnd ▸ List.mem_cons_self _ _)
            · exact hnodup

/-- The query loop keeps, for every query index, the per-query call lists
free of duplicate references: each pass appends only calls for its own
query (which no earlier pass produced), and those are pairwise
distinct. -/
theorem nsqLoop_spec (dfun : Nat → Nat → ℚ) (newN gn : NeighborHeap)
    (mc : Nat) :
    ∀ (Q : List Nat) (st : NsqState), Q.Nodup →
      (∀ p ∈ st.calls, p.1 ∉ Q) →
      (∀ q, ((st.calls.filter (fun p => p.1 == q)).map Prod.snd).Nodup) →
      ∀ q, ((((Q.foldl (fun st2 q2 =>
          let r := nsqPass dfun newN gn mc q2 st2
          ⟨r.cur, r.c, [], r.calls⟩) st).calls).filter
            (fun p => p.1 == q)).map Prod.snd).Nodup
  | [], st, _, _, hsofar, q => by
    simpa using hsofar q
  | q0 :: Q, st, hQ, htags, hsofar, q => by
    rw [List.foldl_cons]
    obtain ⟨add, hcalls, hprop, hnodup⟩ :=
      nsqFold_spec dfun newN gn q0 (rowMajorPairs mc mc) st
    rw [List.nodup_cons] at hQ
    refine nsqLoop_spec dfun newN gn mc Q
      ⟨(nsqPass dfun newN gn mc q0 st).cur,
        (nsqPass dfun newN gn mc q0 st).c, [],
        (nsqPass dfun newN gn mc q0 st).calls⟩
      hQ.2 ?_ ?_ q
    · intro p hp
      rw [show (nsqPass dfun newN gn mc q0 st).calls
          = st.calls ++ add from hcalls] at hp
      rcases List.mem_append.mp hp with hp1 | hp1
      · intro hmem
        exact htags p hp1 (List.mem_cons_of_mem _ hmem)
      · rw [(hprop p hp1).1]
        exact hQ.1
    · intro q1
      rw [show (nsqPass dfun newN gn mc q0 st).calls
          = st.calls ++ add from hcalls]
      rw [List.filter_append, List.map_append]
      by_cases hq1 : q1 = q0
      · subst hq1
        have hnil : st.calls.filter (fun p => p.1 == q1) = [] := by
          rw [List.filter_eq_nil_iff]
          intro p hp
          have := htags p hp
          simp only [List.mem_cons, not_or] at this
          simpa using this.1
        have hall : add.filter (fun p => p.1 == q1) = add := by
          rw [List.filter_eq_self]
          intro p hp
          simp [(hprop p hp).1]
        rw [hnil, hall]
        simpa using hnodup
      · have hnil : add.filter (fun p => p.1 == q1) = [] := by
          rw [List.filter_eq_nil_iff]
          intro p hp
          simp only [(hprop p hp).1, beq_iff_eq]
          exact fun hh => hq1 hh.symm
        rw [hnil]
        simpa using hsofar q1

/-- C3 (confirmed): in `non_search_query`, for every query `q` the
`generate_and_apply(q, r')` calls reference pairwise-distinct reference
indices within `q`'s pass: a reference already in the per-query seen set
is skipped, and the seen set is cleared at the query boundary, so no
reference is updated twice for the same query. -/
theorem non_search_query_at_most_once_per_reference
    (dfun : Nat → Nat → ℚ) (cur newN gn : NeighborHeap) (mc q : Nat) :
    ((((non_search_query dfun cur newN gn mc).calls).filter
        (fun p => p.1 == q)).map Prod.snd).Nodup :=
  nsqLoop_spec dfun newN gn mc (List.range cur.rows.length)
    ⟨cur, 0, [], []⟩ (List.nodup_range _) (by simp) (by simp) q

/-- Reading a list after `set`, with a default. -/
theorem getD_set_eq_ite {α : Type} (l : List α) (n m : Nat) (a d : α) :
    (l.set n a).getD m d = if n = m ∧ n < l.length then a else l.getD m d := by
  rw [List.getD_eq_getElem?_getD, List.getElem?_set]
  by_cases hnm : n = m
  · subst hnm
    by_cases hl : n < l.length
    · simp [hl]
    · simp [hl, List.getD_eq_getElem?_getD,
        List.getElem?_eq_none (by omega : l.length ≤ n)]
  · simp [hnm, List.getD_eq_getElem?_getD]

/-- Reading a default past the end of a list. -/
theorem getD_of_length_le {α : Type} {l : List α} {m : Nat} (d : α)
    (h : l.length ≤ m) : l.getD m d = d := by
  rw [List.getD_eq_getElem?_getD, List.getElem?_eq_none h]
  rfl

/-- Clearing one slot's flag changes no other slot and only the flag. -/
theorem clearFlagAt_flagAt (h : NeighborHeap) (a b i j : Nat) :
    (h.clearFlagAt a b).flagAt i j
      = if a = i ∧ b = j then false else h.flagAt i j := by
  unfold NeighborHeap.clearFlagAt NeighborHeap.flagAt
  simp only []
  rw [getD_set_eq_ite]
  by_cases hai : a = i
  · subst hai
    by_cases hal : a < h.rows.length
    · rw [if_pos ⟨rfl, hal⟩, getD_set_eq_ite]
      by_cases hbj : b = j
      · subst hbj
        conv_rhs => rw [if_pos (⟨rfl, rfl⟩ : a = a ∧ b = b)]
        by_cases hbl : b < (h.rows.getD a []).length
        · rw [if_pos ⟨rfl, hbl⟩]
          rfl
        · rw [if_neg (fun hh => hbl hh.2),
            getD_of_length_le emptyEntry (by omega)]
          rfl
      · rw [if_neg (fun hh => hbj hh.1), if_neg (fun hh => hbj hh.2)]
    · rw [if_neg (fun hh => hal hh.2)]
      by_cases hbj : b = j
      · subst hbj
        conv_rhs => rw [if_pos (⟨rfl, rfl⟩ : a = a ∧ b = b)]
        rw [getD_of_length_le [] (by omega), getD_of_length_le emptyEntry
          (by simp)]
        rfl
      · rw [if_neg (fun hh => hbj hh.2)]
  · rw [if_neg (fun hh => hai hh.1), if_neg (fun hh => hai hh.1)]

/-- Clearing a flag never changes a neighbor index. -/
theorem clearFlagAt_index (h : NeighborHeap) (a b i j : Nat) :
    (h.clearFlagAt a b).index i j = h.index i j := by
  unfold NeighborHeap.clearFlagAt NeighborHeap.index
  simp only []
  rw [getD_set_eq_ite]
  by_cases hai : a = i
  · subst hai
    by_cases hal : a < h.rows.length
    · rw [if_pos ⟨rfl, hal⟩, getD_set_eq_ite]
      by_cases hbj : b = j
      · subst hbj
        by_cases hbl : b < (h.rows.getD a []).length
        · rw [if_pos ⟨rfl, hbl⟩]
          rfl
        · rw [if_neg (fun hh => hbl hh.2)]
      · rw [if_neg (fun hh => hbj hh.1)]
    · rw [if_neg (fun hh => hal hh.2)]
  · rw [if_neg (fun hh => hai hh.1)]

/-- Clearing a flag never changes a stored distance. -/
theorem clearFlagAt_distAt (h : NeighborHeap) (a b i j : Nat) :
    (h.clearFlagAt a b).distAt i j = h.distAt i j := by
  unfold NeighborHeap.clearFlagAt NeighborHeap.distAt
  simp only []
  rw [getD_set_eq_ite]
  by_cases hai : a = i
  · subst hai
    by_cases hal : a < h.rows.length
    · rw [if_pos ⟨rfl, hal⟩, getD_set_eq_ite]
      by_cases hbj : b = j
      · subst hbj
        by_cases hbl : b < (h.rows.getD a []).length
        · rw [if_pos ⟨rfl, hbl⟩]
          rfl
        · rw [if_neg (fun hh => hbl hh.2)]
      · rw [if_neg (fun hh => hbj hh.1)]
    · rw [if_neg (fun hh => hal hh.2)]
  · rw [if_neg (fun hh => hai hh.1)]

/-- One candidate-build step with `flag_on_add = true` clears exactly the
processed slot's flag (a slot whose flag is already clear stays clear). -/
theorem bqcStep_true_flagAt (cp : CandPriority)
    (st : NeighborHeap × NeighborHeap) (p : Nat × Nat) (i j : Nat) :
    (bqcStep cp true st p).2.flagAt i j
      = if p.1 = i ∧ p.2 = j then false else st.2.flagAt i j := by
  unfold bqcStep
  simp only []
  by_cases hflag : st.2.flagAt p.1 p.2 = true
  · rw [if_pos hflag]
    simp only [if_true]
    rw [clearFlagAt_flagAt]
  · rw [if_neg hflag]
    by_cases hp : p.1 = i ∧ p.2 = j
    · rw [if_pos hp]
      obtain ⟨rfl, rfl⟩ := hp
      simpa using hflag
    · rw [if_neg hp]

/-- Any candidate-build step leaves every index unchanged. -/
theorem bqcStep_index (cp : CandPriority) (foa : Bool)
    (st : NeighborHeap × NeighborHeap) (p : Nat × Nat) (i j : Nat) :
    (bqcStep cp foa st p).2.index i j = st.2.index i j := by
  unfold bqcStep
  simp only []
  by_cases hflag : st.2.flagAt p.1 p.2 = true
  · rw [if_pos hflag]
    cases foa
    · rfl
    · simp only [if_true]
      rw [clearFlagAt_index]
  · rw [if_neg hflag]

/-- Any candidate-build step leaves every distance unchanged. -/
theorem bqcStep_distAt (cp : CandPriority) (foa : Bool)
    (st : NeighborHeap × NeighborHeap) (p : Nat × Nat) (i j : Nat) :
    (bqcStep cp foa st p).2.distAt i j = st.2.distAt i j := by
  unfold bqcStep
  simp only []
  by_cases hflag : st.2.flagAt p.1 p.2 = true
  · rw [if_pos hflag]
    cases foa
    · rfl
    · simp only [if_true]
      rw [clearFlagAt_distAt]
  · rw [if_neg hflag]

/-- Folding the candidate-build step with `flag_on_add = true`: a slot's
flag survives exactly when it survived before and the slot is not among
the processed pairs. -/
theorem bqc_fold_true_flagAt (cp : CandPriority) :
    ∀ (L : List (Nat × Nat)) (st : NeighborHeap × NeighborHeap)
      (i j : Nat),
      (L.foldl (bqcStep cp true) st).2.flagAt i j
        = (st.2.flagAt i j && !(L.contains (i, j)))
  | [], st, i, j => by simp
  | p :: L, st, i, j => by
    rw [List.foldl_cons, bqc_fold_true_flagAt cp L (bqcStep cp true st p) i j,
      bqcStep_true_flagAt]
    by_cases hp : p.1 = i ∧ p.2 = j
    · rw [if_pos hp]
      obtain ⟨rfl, rfl⟩ := hp
      simp
    · rw [if_neg hp]
      have hne : ((i, j) == p) = false := by
        apply beq_eq_false_iff_ne.mpr
        intro hh
        obtain ⟨p1, p2⟩ := p
        injection hh with h1 h2
        exact hp ⟨h1.symm, h2.symm⟩
      simp only [List.contains_cons, hne, Bool.false_or]

/-- Folding the candidate-build step never changes indices. -/
theorem bqc_fold_index (cp : CandPriority) (foa : Bool) :
    ∀ (L : List (Nat × Nat)) (st : NeighborHeap × NeighborHeap)
      (i j : Nat),
      (L.foldl (bqcStep cp foa) st).2.index i j = st.2.index i j
  | [], _, _, _ => rfl
  | p :: L, st, i, j => by
    rw [List.foldl_cons, bqc_fold_index cp foa L (bqcStep cp foa st p) i j,
      bqcStep_index]

/-- Folding the candidate-build step never changes distances. -/
theorem bqc_fold_distAt (cp : CandPriority) (foa : Bool) :
    ∀ (L : List (Nat × Nat)) (st : NeighborHeap × NeighborHeap)
      (i j : Nat),
      (L.foldl (bqcStep cp foa) st).2.distAt i j = st.2.distAt i j
  | [], _, _, _ => rfl
  | p :: L, st, i, j => by
    rw [List.foldl_cons, bqc_fold_distAt cp foa L (bqcStep cp foa st p) i j,
      bqcStep_distAt]

/-- With `flag_on_add = false` the candidate build does not touch the
current graph at all. -/
theorem bqc_fold_false_cur (cp : CandPriority) :
    ∀ (L : List (Nat × Nat)) (st : NeighborHeap × NeighborHeap),
      (L.foldl (bqcStep cp false) st).2 = st.2
  | [], _ => rfl
  | p :: L, st => by
    rw [List.foldl_cons, bqc_fold_false_cur cp L (bqcStep cp false st p)]
    unfold bqcStep
    simp only []
    by_cases hflag : st.2.flagAt p.1 p.2 = true
    · rw [if_pos hflag]
      simp
    · rw [if_neg hflag]

/-- Reading a row of `mapIdx` with the empty default, when the function
maps empty rows to empty rows. -/
theorem mapIdx_rows_getD (f : Nat → List Entry → List Entry)
    (hf : ∀ i, f i [] = []) (l : List (List Entry)) (i : Nat) :
    (List.mapIdx f l).getD i [] = f i (l.getD i []) := by
  rw [List.getD_eq_getElem?_getD, List.getElem?_mapIdx,
    List.getD_eq_getElem?_getD]
  cases l[i]? with
  | none => simp [hf]
  | some row => simp

/-- Reading a mapped list with a default that is a fixed point of the
map. -/
theorem getD_map_fix {α : Type} (g : α → α) (l : List α) (j : Nat) (d : α)
    (hd : g d = d) : (l.map g).getD j d = g (l.getD j d) := by
  rw [List.getD_eq_getElem?_getD, List.getElem?_map,
    List.getD_eq_getElem?_getD]
  cases l[j]? with
  | none => simpa using hd.symm
  | some e => simp

/-- Pointwise description of `flag_retained_new_candidates`: the flag of
edge `(i, j)` is cleared exactly when the new-candidate heap row `i`
contains that edge's index; indices and distances are untouched. -/
theorem flag_retained_flagAt (cur newC : NeighborHeap) (i j : Nat) :
    (flag_retained_new_candidates cur newC).flagAt i j
      = if newC.containsIdx i (cur.index i j) = true then false
        else cur.flagAt i j := by
  unfold flag_retained_new_candidates NeighborHeap.flagAt NeighborHeap.index
  simp only []
  rw [mapIdx_rows_getD _ (fun _ => rfl), getD_map_fix _ _ _ _
    (by unfold emptyEntry; by_cases hc : newC.containsIdx i NPOS = true
        · rw [if_pos hc]
        · rw [if_neg hc])]
  by_cases hc : newC.containsIdx i ((cur.rows.getD i []).getD j
      emptyEntry).idx = true
  · rw [if_pos hc, if_pos hc]
  · rw [if_neg hc, if_neg hc]

/-- `flag_retained_new_candidates` never changes a neighbor index. -/
theorem flag_retained_index (cur newC : NeighborHeap) (i j : Nat) :
    (flag_retained_new_candidates cur newC).index i j = cur.index i j := by
  unfold flag_retained_new_candidates NeighborHeap.index
  simp only []
  rw [mapIdx_rows_getD _ (fun _ => rfl), getD_map_fix _ _ _ _
    (by unfold emptyEntry; by_cases hc : newC.containsIdx i NPOS = true
        · rw [if_pos hc]
        · rw [if_neg hc])]
  by_cases hc : newC.containsIdx i ((cur.rows.getD i []).getD j
      emptyEntry).idx = true
  · rw [if_pos hc]
  · rw [if_neg hc]

/-- `flag_retained_new_candidates` never changes a stored distance. -/
theorem flag_retained_distAt (cur newC : NeighborHeap) (i j : Nat) :
    (flag_retained_new_candidates cur newC).distAt i j = cur.distAt i j := by
  unfold flag_retained_new_candidates NeighborHeap.distAt
  simp only []
  rw [mapIdx_rows_getD _ (fun _ => rfl), getD_map_fix _ _ _ _
    (by unfold emptyEntry; by_cases hc : newC.containsIdx i NPOS = true
        · rw [if_pos hc]
        · rw [if_neg hc])]
  by_cases hc : newC.containsIdx i ((cur.rows.getD i []).getD j
      emptyEntry).idx = true
  · rw [if_pos hc]
  · rw [if_neg hc]

/-- C5 (confirmed): in the query candidate phase, `flag_on_add` is true
exactly when `max_candidates ≥ n_nbrs`.  When it is true, the phase is
just `build_query_candidates`, which clears the current-graph flag of
every processed slot at push time (all flags inside the graph's
dimensions end up clear) and touches no index or distance.  When it is
false, `build_query_candidates` leaves the current graph completely
unchanged and clearing is deferred to the `flag_retained_new_candidates`
post-pass, which clears precisely the edges whose index is contained in
that row's new-candidate heap. -/
theorem query_candidate_phase_flag_policy (cur : NeighborHeap)
    (cp : CandPriority) (mc : Nat) :
    (cur.n_nbrs ≤ mc →
      query_candidate_phase cur cp mc
          = build_query_candidates cur cp (mkHeap cur.rows.length mc) true ∧
        (∀ i j, i < cur.rows.length → j < cur.n_nbrs →
          (query_candidate_phase cur cp mc).2.flagAt i j = false) ∧
        (∀ i j,
          (query_candidate_phase cur cp mc).2.index i j = cur.index i j
            ∧ (query_candidate_phase cur cp mc).2.distAt i j
                = cur.distAt i j)) ∧
    (mc < cur.n_nbrs →
      (build_query_candidates cur cp (mkHeap cur.rows.length mc) false).2
          = cur ∧
        (query_candidate_phase cur cp mc).2
          = flag_retained_new_candidates cur
              (query_candidate_phase cur cp mc).1 ∧
        (∀ i j, (query_candidate_phase cur cp mc).2.flagAt i j
          = if (query_candidate_phase cur cp mc).1.containsIdx i
                (cur.index i j) = true
            then false else cur.flagAt i j) ∧
        (∀ i j,
          (query_candidate_phase cur cp mc).2.index i j = cur.index i j
            ∧ (query_candidate_phase cur cp mc).2.distAt i j
                = cur.distAt i j)) := by
  constructor
  · intro hle
    have hfoa : decide (cur.n_nbrs ≤ mc) = true := decide_eq_true hle
    have hphase : query_candidate_phase cur cp mc
        = build_query_candidates cur cp (mkHeap cur.rows.length mc) true := by
      unfold query_candidate_phase
      rw [hfoa]
      simp
    refine ⟨hphase, ?_, ?_⟩
    · intro i j hi hj
      rw [hphase]
      unfold build_query_candidates
      rw [bqc_fold_true_flagAt]
      have hcont : (rowMajorPairs cur.rows.length cur.n_nbrs).contains
          (i, j) = true := by
        simpa [List.contains] using
          List.elem_eq_true_of_mem (mem_rowMajorPairs.mpr ⟨hi, hj⟩)
      rw [hcont]
      simp
    · intro i j
      rw [hphase]
      unfold build_query_candidates
      rw [bqc_fold_index, bqc_fold_distAt]
      exact ⟨rfl, rfl⟩
  · intro hlt
    have hfoa : decide (cur.n_nbrs ≤ mc) = false :=
      decide_eq_false (by omega)
    have hcur : (build_query_candidates cur cp
        (mkHeap cur.rows.length mc) false).2 = cur := by
      unfold build_query_candidates
      exact bqc_fold_false_cur cp _ _
    have hphase1 : (query_candidate_phase cur cp mc).1
        = (build_query_candidates cur cp
            (mkHeap cur.rows.length mc) false).1 := by
      unfold query_candidate_phase
      rw [hfoa]
      simp
    have hphase2 : (query_candidate_phase cur cp mc).2
        = flag_retained_new_candidates cur
            (query_candidate_phase cur cp mc).1 := by
      unfold query_candidate_phase
      rw [hfoa]
      simp only [Bool.false_eq_true, if_false]
      rw [hcur]
    refine ⟨hcur, hphase2, ?_, ?_⟩
    · intro i j
      rw [hphase2, flag_retained_flagAt]
    · intro i j
      rw [hphase2, flag_retained_index, flag_retained_distAt]
      exact ⟨rfl, rfl⟩

/-- A one-point, one-neighbor current graph with a flagged edge, used to
instantiate the query flag-policy theorem. -/
def flaggedHeap : NeighborHeap := ⟨1, [[⟨1, RDist.fin 1, true⟩]]⟩

/-- C5 (witness): the flag policy instantiated on `flaggedHeap`, once with
`max_candidates = 1 ≥ n_nbrs` (clear at push time) and once with
`max_candidates = 0 < n_nbrs` (deferred post-pass). -/
theorem query_candidate_phase_flag_policy_witness :
    (query_candidate_phase flaggedHeap rankedPriority 1
        = build_query_candidates flaggedHeap rankedPriority
            (mkHeap flaggedHeap.rows.length 1) true ∧
      (∀ i j, i < flaggedHeap.rows.length → j < flaggedHeap.n_nbrs →
        (query_candidate_phase flaggedHeap rankedPriority 1).2.flagAt i j
          = false) ∧
      (∀ i j,
        (query_candidate_phase flaggedHeap rankedPriority 1).2.index i j
            = flaggedHeap.index i j
          ∧ (query_candidate_phase flaggedHeap rankedPriority 1).2.distAt i j
              = flaggedHeap.distAt i j)) ∧
    ((build_query_candidates flaggedHeap rankedPriority
          (mkHeap flaggedHeap.rows.length 0) false).2 = flaggedHeap ∧
      (query_candidate_phase flaggedHeap rankedPriority 0).2
        = flag_retained_new_candidates flaggedHeap
            (query_candidate_phase flaggedHeap rankedPriority 0).1 ∧
      (∀ i j, (query_candidate_phase flaggedHeap rankedPriority 0).2.flagAt i j
        = if (query_candidate_phase flaggedHeap rankedPriority 0).1.containsIdx
              i (flaggedHeap.index i j) = true
          then false else flaggedHeap.flagAt i j) ∧
      (∀ i j,
        (query_candidate_phase flaggedHeap rankedPriority 0).2.index i j
            = flaggedHeap.index i j
          ∧ (query_candidate_phase flaggedHeap rankedPriority 0).2.distAt i j
              = flaggedHeap.distAt i j)) :=
  ⟨(query_candidate_phase_flag_policy flaggedHeap rankedPriority 1).1
      (by decide),
    (query_candidate_phase_flag_policy flaggedHeap rankedPriority 0).2
      (by decide)⟩

/-- Modelled from the spec: `r_to_heap_serial<HeapAdd>` (`rnn_rtoheap.h`
is not in the source tree): load an R matrix pair into the heap row-major
through the `HeapAdd` policy, converting the 1-indexed external neighbor
ids to 0-indexed at the boundary. -/
def r_to_heap_serial (hadd : NeighborHeap → Nat → Nat → RDist → NeighborHeap)
    (g : NeighborHeap) (idx : List (List Nat)) (dist : List (List ℚ)) :
    NeighborHeap :=
  (rowMajorPairs idx.length (idx.headD []).length).foldl
    (fun acc p => hadd acc p.1 ((idx.getD p.1 []).getD p.2 0 - 1)
      (RDist.fin ((dist.getD p.1 []).getD p.2 0)))
    g

/-- From `rnn.h` lines 149-164 (`heap_to_r`): export every slot, turning
the 0-indexed neighbor ids back into 1-indexed ones. -/
def heap_to_r (h : NeighborHeap) : List (List Nat) × List (List RDist) :=
  (h.rows.map (fun r => r.map (fun e => e.idx + 1)),
    h.rows.map (fun r => r.map Entry.dist))

/-- From `merge_nn_impl` (serial path): create a heap of the first
graph's dimensions, load both graphs through the `HeapAdd` policy,
deheap-sort, and export. -/
def merge_nn_impl (hadd : NeighborHeap → Nat → Nat → RDist → NeighborHeap)
    (idx1 : List (List Nat)) (dist1 : List (List ℚ))
    (idx2 : List (List Nat)) (dist2 : List (List ℚ)) :
    List (List Nat) × List (List RDist) :=
  let merged0 := mkHeap idx1.length (idx1.headD []).length
  let m1 := r_to_heap_serial hadd merged0 idx1 dist1
  let m2 := r_to_heap_serial hadd m1 idx2 dist2
  heap_to_r m2.deheap_sort

/-- C8 (corrected, counterexample): merging the valid sorted 1-NN graph
`idx = [[2],[3],[2]]`, `dist = [[1],[2],[2]]` (1-indexed, consistent with
a symmetric metric, strictly sorted rows, no self-loops, no duplicates)
with itself through the build-path `HeapAddSymmetric` does not reproduce
the input: the pair pushes add reverse edges, and row 2's stored neighbor
3 is displaced by the closer reverse edge from point 1. -/
theorem merge_nn_self_not_identity :
    (merge_nn_impl heapAddSymmetric [[2], [3], [2]] [[1], [2], [2]]
        [[2], [3], [2]] [[1], [2], [2]]).1 ≠ [[2], [3], [2]] ∧
      (merge_nn_impl heapAddSymmetric [[2], [3], [2]] [[1], [2], [2]]
        [[2], [3], [2]] [[1], [2], [2]]).1 = [[2], [1], [2]] := by
  with_unfolding_all decide

/-- The row-level effect of a query push (`checked_push` restricted to
its target row). -/
def rowPush (i : Nat) (row : List Entry) (j : Nat) (d : RDist) :
    List Entry :=
  if RDist.ble (rootDist row) d || j == i || row.any (fun e => e.idx == j)
  then row
  else replaceFirstAt (rootDist row) ⟨j, d, true⟩ row

/-- A query push preserves the number of rows. -/
theorem heapAddQuery_rows_length (g : NeighborHeap) (a j : Nat)
    (d : RDist) : (heapAddQuery g a j d).rows.length = g.rows.length := by
  unfold heapAddQuery NeighborHeap.checked_push
  simp only []
  by_cases hc : (RDist.ble (rootDist (g.rows.getD a [])) d || j == a
      || g.containsIdx a j) = true
  · rw [if_pos hc]
  · rw [if_neg hc]
    unfold NeighborHeap.unchecked_push
    simp [List.length_set]

/-- A query push seen from one row: the target row is pushed into, every
other row is untouched. -/
theorem heapAddQuery_row_getD (g : NeighborHeap) (a j : Nat) (d : RDist)
    (i : Nat) (hi : i < g.rows.length) :
    (heapAddQuery g a j d).rows.getD i []
      = if a = i then rowPush i (g.rows.getD i []) j d
        else g.rows.getD i [] := by
  unfold heapAddQuery NeighborHeap.checked_push rowPush
  simp only []
  by_cases hai : a = i
  · subst hai
    by_cases hc : (RDist.ble (rootDist (g.rows.getD a [])) d || j == a
        || g.containsIdx a j) = true
    · have hc2 : (RDist.ble (rootDist (g.rows.getD a [])) d || j == a
          || (g.rows.getD a []).any (fun e => e.idx == j)) = true := by
        simpa [NeighborHeap.containsIdx] using hc
      rw [if_pos hc, if_pos hc2]
      simp
    · have hc2 : ¬(RDist.ble (rootDist (g.rows.getD a [])) d || j == a
          || (g.rows.getD a []).any (fun e => e.idx == j)) = true := by
        simpa [NeighborHeap.containsIdx] using hc
      rw [if_neg hc, if_neg hc2]
      unfold NeighborHeap.unchecked_push
      simp only []
      rw [getD_set_eq_ite, if_pos ⟨rfl, hi⟩]
      simp
  · by_cases hc : (RDist.ble (rootDist (g.rows.getD a [])) d || j == a
        || g.containsIdx a j) = true
    · rw [if_pos hc, if_neg hai]
    · rw [if_neg hc, if_neg hai]
      unfold NeighborHeap.unchecked_push
      simp only []
      rw [getD_set_eq_ite, if_neg (fun hh => hai hh.1)]

/-- A sequence of query pushes preserves the number of rows. -/
theorem foldl_query_rows_length :
    ∀ (L : List (Nat × Nat × RDist)) (g : NeighborHeap),
      ((L.foldl (fun acc t => heapAddQuery acc t.1 t.2.1 t.2.2) g).rows.length)
        = g.rows.length
  | [], _ => rfl
  | t :: L, g => by
    rw [List.foldl_cons,
      foldl_query_rows_length L (heapAddQuery g t.1 t.2.1 t.2.2),
      heapAddQuery_rows_length]


/-- A sequence of query pushes acts on each row independently: row `i` is
the row-level fold of the pushes aimed at row `i`. -/
theorem foldl_query_row (i : Nat) :
    ∀ (L : List (Nat × Nat × RDist)) (g : NeighborHeap),
      i < g.rows.length →
      ((L.foldl (fun acc t => heapAddQuery acc t.1 t.2.1 t.2.2)
          g).rows.getD i [])
        = (L.filter (fun t => t.1 == i)).foldl
            (fun row t => rowPush i row t.2.1 t.2.2) (g.rows.getD i [])
  | [], g, _ => rfl
  | t :: L, g, hi => by
    rw [List.foldl_cons]
    have hlen : i < (heapAddQuery g t.1 t.2.1 t.2.2).rows.length := by
      rw [heapAddQuery_rows_length]
      exact hi
    rw [foldl_query_row i L _ hlen, List.filter_cons]
    by_cases hti : t.1 = i
    · rw [if_pos (by simpa using hti), List.foldl_cons,
        heapAddQuery_row_getD g t.1 t.2.1 t.2.2 i hi, if_pos hti]
    · rw [if_neg (by simpa using hti),
        heapAddQuery_row_getD g t.1 t.2.1 t.2.2 i hi, if_neg hti]

/-- The pushes of the row-major traversal aimed at row `i < n` are
exactly row `i`'s columns in order. -/
theorem rowMajorPairs_filter (n K i : Nat) (hi : i < n) :
    (rowMajorPairs n K).filter (fun p => p.1 == i)
      = (List.range K).map (fun j => (i, j)) := by
  induction n with
  | zero => omega
  | succ m ih =>
    unfold rowMajorPairs
    rw [List.range_succ, List.flatMap_append, List.filter_append]
    have hsingle : ([m].flatMap (fun a => (List.range K).map (fun j => (a, j))))
        = (List.range K).map (fun j => (m, j)) := by
      simp
    rw [hsingle]
    rcases Nat.lt_or_ge i m with him | him
    · have hnil : ((List.range K).map (fun j => (m, j))).filter
          (fun p => p.1 == i) = [] := by
        rw [List.filter_eq_nil_iff]
        intro p hp
        obtain ⟨j, _, rfl⟩ := List.mem_map.mp hp
        simp only [beq_iff_eq]
        omega
      rw [hnil, List.append_nil]
      exact ih him
    · have hieq : i = m := by omega
      subst hieq
      have hnil : ((List.range i).flatMap
          (fun a => (List.range K).map (fun j => (a, j)))).filter
            (fun p => p.1 == i) = [] := by
        rw [List.filter_eq_nil_iff]
        intro p hp
        have hmem : p ∈ rowMajorPairs i K := hp
        obtain ⟨p1, p2⟩ := p
        obtain ⟨h1, _⟩ := mem_rowMajorPairs.mp hmem
        simp only [beq_iff_eq]
        omega
      rw [hnil, List.nil_append]
      apply List.filter_eq_self.mpr
      intro p hp
      obtain ⟨j, _, rfl⟩ := List.mem_map.mp hp
      simp

/-- Folding the row maximum from an infinite accumulator stays infinite. -/
theorem rootDist_fold_inf :
    ∀ (es : List Entry),
      es.foldl (fun m x => if RDist.blt m x.dist then x.dist else m)
        RDist.inf = RDist.inf
  | [] => rfl
  | e :: es => by
    rw [List.foldl_cons]
    have hblt : RDist.blt RDist.inf e.dist = false := rfl
    rw [hblt]
    simp only [Bool.false_eq_true, if_false]
    exact rootDist_fold_inf es

/-- Folding the row maximum over a list containing an infinite distance
gives infinity, from any accumulator. -/
theorem rootDist_fold_mem_inf :
    ∀ (es : List Entry) (a : RDist), (∃ e ∈ es, e.dist = RDist.inf) →
      es.foldl (fun m x => if RDist.blt m x.dist then x.dist else m) a
        = RDist.inf
  | [], _, h => by simp at h
  | e :: es, a, h => by
    rw [List.foldl_cons]
    obtain ⟨x, hx, hxd⟩ := h
    rcases List.mem_cons.mp hx with rfl | hx2
    · rw [hxd]
      cases a with
      | fin q =>
        rw [show RDist.blt (RDist.fin q) RDist.inf = true from rfl]
        simp only [if_true]
        exact rootDist_fold_inf es
      | inf =>
        rw [show RDist.blt RDist.inf RDist.inf = false from rfl]
        simp only [Bool.false_eq_true, if_false]
        exact rootDist_fold_inf es
    · exact rootDist_fold_mem_inf es _ ⟨x, hx2, hxd⟩

/-- A row containing an infinite slot has an infinite root. -/
theorem rootDist_eq_inf_of_mem (l : List Entry)
    (h : ∃ e ∈ l, e.dist = RDist.inf) : rootDist l = RDist.inf := by
  cases l with
  | nil => simp at h
  | cons e es =>
    simp only [rootDist]
    obtain ⟨x, hx, hxd⟩ := h
    rcases List.mem_cons.mp hx with rfl | hx2
    · rw [hxd]
      exact rootDist_fold_inf es
    · exact rootDist_fold_mem_inf es e.dist ⟨x, hx2, hxd⟩

/-- Replacing the first infinite slot of a filled-prefix row lands on the
first padding slot. -/
theorem replaceFirstAt_inf_pad (e : Entry) :
    ∀ (done : List Entry) (k : Nat), (∀ x ∈ done, x.dist ≠ RDist.inf) →
      replaceFirstAt RDist.inf e
          (done ++ List.replicate (k + 1) emptyEntry)
        = done ++ e :: List.replicate k emptyEntry
  | [], k, _ => by
    have hinf : emptyEntry.dist = RDist.inf := rfl
    rw [List.nil_append, List.replicate_succ, replaceFirstAt, if_pos hinf]
    rfl
  | x :: done, k, hd => by
    rw [List.cons_append, replaceFirstAt,
      if_neg (hd x (List.mem_cons_self _ _)), List.cons_append]
    rw [replaceFirstAt_inf_pad e done k
      (fun y hy => hd y (List.mem_cons_of_mem _ hy))]

/-- Loading a list of fresh, pairwise-distinct, non-self, finite pushes
into a row whose filled prefix they avoid appends them in order over the
padding. -/
theorem load_row_spec (i : Nat) :
    ∀ (ps : List (Nat × RDist)) (done : List Entry) (padk : Nat),
      (∀ x ∈ done, x.dist ≠ RDist.inf) →
      (∀ t ∈ ps, t.1 ≠ i ∧ t.1 ≠ NPOS ∧ t.1 ∉ done.map Entry.idx
        ∧ t.2 ≠ RDist.inf) →
      (ps.map Prod.fst).Nodup →
      ps.length ≤ padk →
      ps.foldl (fun row t => rowPush i row t.1 t.2)
          (done ++ List.replicate padk emptyEntry)
        = done ++ (ps.map (fun t => (⟨t.1, t.2, true⟩ : Entry)))
            ++ List.replicate (padk - ps.length) emptyEntry
  | [], done, padk, _, _, _, _ => by simp
  | t :: ps, done, padk, hdone, hts, hnd, hlen => by
    rw [List.foldl_cons]
    obtain ⟨hti, htn, htd, htf⟩ := hts t (List.mem_cons_self _ _)
    have hpadk : ∃ k, padk = k + 1 := by
      refine ⟨padk - 1, ?_⟩
      have := List.length_cons t ps ▸ hlen
      omega
    obtain ⟨k, rfl⟩ := hpadk
    have hroot : rootDist (done ++ List.replicate (k + 1) emptyEntry)
        = RDist.inf := by
      apply rootDist_eq_inf_of_mem
      exact ⟨emptyEntry, by simp [List.replicate_succ], rfl⟩
    have hpush : rowPush i (done ++ List.replicate (k + 1) emptyEntry)
        t.1 t.2 = done ++ (⟨t.1, t.2, true⟩ : Entry)
          :: List.replicate k emptyEntry := by
      unfold rowPush
      rw [hroot]
      have hble : RDist.ble RDist.inf t.2 = false := by
        unfold RDist.ble
        cases htd2 : t.2 with
        | fin q => rfl
        | inf => exact absurd htd2 htf
      rw [hble]
      have hbeq : (t.1 == i) = false := by simpa using hti
      rw [hbeq]
      have hcont : ((done ++ List.replicate (k + 1) emptyEntry).any
          (fun e => e.idx == t.1)) = false := by
        rw [List.any_eq_false]
        intro x hx
        rcases List.mem_append.mp hx with hx1 | hx1
        · simp only [beq_iff_eq]
          intro hh
          exact htd (List.mem_map.mpr ⟨x, hx1, hh⟩)
        · have := List.eq_of_mem_replicate hx1
          subst this
          simp only [emptyEntry, beq_iff_eq]
          intro hh
          exact htn hh.symm
      rw [hcont]
      simp only [Bool.or_false, Bool.false_eq_true, if_false]
      exact replaceFirstAt_inf_pad _ done k hdone
    rw [hpush]
    have hdone2 : ∀ x ∈ done ++ [(⟨t.1, t.2, true⟩ : Entry)],
        x.dist ≠ RDist.inf := by
      intro x hx
      rcases List.mem_append.mp hx with hx1 | hx1
      · exact hdone x hx1
      · rw [List.mem_singleton.mp hx1]
        exact htf
    have hts2 : ∀ t2 ∈ ps, t2.1 ≠ i ∧ t2.1 ≠ NPOS
        ∧ t2.1 ∉ (done ++ [(⟨t.1, t.2, true⟩ : Entry)]).map Entry.idx
        ∧ t2.2 ≠ RDist.inf := by
      intro t2 ht2
      obtain ⟨h1, h2, h3, h4⟩ := hts t2 (List.mem_cons_of_mem _ ht2)
      refine ⟨h1, h2, ?_, h4⟩
      rw [List.map_append, List.mem_append]
      rintro (hh | hh)
      · exact h3 hh
      · simp only [List.map_cons, List.map_nil, List.mem_singleton] at hh
        rw [List.map_cons, List.nodup_cons] at hnd
        exact hnd.1 (hh ▸ List.mem_map.mpr ⟨t2, ht2, rfl⟩)
    have hnd2 : (ps.map Prod.fst).Nodup := by
      rw [List.map_cons, List.nodup_cons] at hnd
      exact hnd.2
    have hlen2 : ps.length ≤ k := by
      have := List.length_cons t ps ▸ hlen
      omega
    have hcombine := load_row_spec i ps
      (done ++ [(⟨t.1, t.2, true⟩ : Entry)]) k hdone2 hts2 hnd2 hlen2
    rw [show done ++ (⟨t.1, t.2, true⟩ : Entry)
        :: List.replicate k emptyEntry
      = (done ++ [(⟨t.1, t.2, true⟩ : Entry)])
        ++ List.replicate k emptyEntry by simp]
    rw [hcombine]
    simp only [List.map_cons, List.length_cons]
    rw [show k - ps.length = (k + 1) - (ps.length + 1) from by omega]
    simp [List.append_assoc]

/-- Pushes whose index is already present in the row are all rejected. -/
theorem load_row_rejects (i : Nat) :
    ∀ (ps : List (Nat × RDist)) (row : List Entry),
      (∀ t ∈ ps, t.1 ∈ row.map Entry.idx) →
      ps.foldl (fun row2 t => rowPush i row2 t.1 t.2) row = row
  | [], _, _ => rfl
  | t :: ps, row, h => by
    rw [List.foldl_cons]
    have hmem := h t (List.mem_cons_self _ _)
    have hpush : rowPush i row t.1 t.2 = row := by
      unfold rowPush
      have hcont : (row.any (fun e => e.idx == t.1)) = true := by
        obtain ⟨e, he, heq⟩ := List.mem_map.mp hmem
        exact List.any_eq_true.mpr ⟨e, he, by simpa using heq⟩
      rw [hcont]
      simp
    rw [hpush]
    exact load_row_rejects i ps row
      (fun t2 ht2 => h t2 (List.mem_cons_of_mem _ ht2))

/-- Reading every position of a list in order reproduces the list. -/
theorem map_getD_range {α : Type} (d : α) :
    ∀ (l : List α),
      (List.range l.length).map (fun j => l.getD j d) = l
  | [] => rfl
  | x :: xs => by
    rw [List.length_cons, List.range_succ_eq_map, List.map_cons,
      List.map_map]
    rw [show ((fun j => (x :: xs).getD j d) ∘ Nat.succ)
        = (fun j => xs.getD j d) from funext (fun j => by simp)]
    rw [map_getD_range d xs]
    rfl


/-- Reading inside a replicate list. -/
theorem getD_replicate_lt {α : Type} (x d : α) (n i : Nat) (hi : i < n) :
    (List.replicate n x).getD i d = x := by
  rw [List.getD_eq_getElem _ _ (by simpa using hi)]
  exact List.getElem_replicate _ _

/-- Reading inside a mapped list, within bounds. -/
theorem getD_map_lt {α β : Type} (f : α → β) (l : List α) (d : β) (d2 : α)
    (i : Nat) (hi : i < l.length) :
    (l.map f).getD i d = f (l.getD i d2) := by
  rw [List.getD_eq_getElem _ _ (by simpa using hi),
    List.getD_eq_getElem _ _ hi]
  exact List.getElem_map _

/-- Two lists of equal length agreeing at every in-range `getD` are equal. -/
theorem list_ext_getD {α : Type} (d : α) (l1 l2 : List α)
    (hlen : l1.length = l2.length)
    (h : ∀ k, k < l1.length → l1.getD k d = l2.getD k d) : l1 = l2 := by
  apply List.ext_getElem hlen
  intro k h1 h2
  have h3 := h k h1
  rwa [List.getD_eq_getElem _ _ h1, List.getD_eq_getElem _ _ h2] at h3

/-- Mapping a slot function that is monotone for the deheap ordering over
an index range yields a sorted list. -/
theorem range_entries_sorted (K : Nat) (f : Nat → Entry)
    (hmono : ∀ a b, a < b → b < K → entryLe (f a) (f b)) :
    List.Sorted entryLe ((List.range K).map f) := by
  unfold List.Sorted
  rw [List.pairwise_map]
  apply List.pairwise_iff_getElem.mpr
  intro a b h1 h2 hab
  simp only [List.getElem_range]
  rw [List.length_range] at h2
  exact hmono a b hab h2

/-- The push tuple (target row, 0-indexed neighbor, distance) generated by
`r_to_heap_serial` at matrix position `p`. -/
def mergeTuple (idx : List (List Nat)) (dist : List (List ℚ))
    (p : Nat × Nat) : Nat × Nat × RDist :=
  (p.1, (idx.getD p.1 []).getD p.2 0 - 1,
    RDist.fin ((dist.getD p.1 []).getD p.2 0))

/-- The serial loader through `HeapAddQuery` is the tuple fold over the
row-major push list. -/
theorem r_to_heap_serial_query_eq (g : NeighborHeap)
    (idx : List (List Nat)) (dist : List (List ℚ)) :
    r_to_heap_serial heapAddQuery g idx dist
      = ((rowMajorPairs idx.length (idx.headD []).length).map
          (mergeTuple idx dist)).foldl
          (fun acc t => heapAddQuery acc t.1 t.2.1 t.2.2) g := by
  rw [List.foldl_map]
  rfl

/-- The serial loader through `HeapAddQuery` preserves the number of rows. -/
theorem r_to_heap_serial_query_rows_length (g : NeighborHeap)
    (idx : List (List Nat)) (dist : List (List ℚ)) :
    (r_to_heap_serial heapAddQuery g idx dist).rows.length
      = g.rows.length := by
  rw [r_to_heap_serial_query_eq]
  exact foldl_query_rows_length _ g

/-- Loading the same row of fresh pushes twice into an empty row: the
first pass fills the row in order, the second pass is fully rejected by
the dedup check. -/
theorem load_twice_row (i K : Nat) (ps : List (Nat × RDist))
    (hts : ∀ t ∈ ps, t.1 ≠ i ∧ t.1 ≠ NPOS ∧ t.2 ≠ RDist.inf)
    (hnd : (ps.map Prod.fst).Nodup)
    (hlen : ps.length = K) :
    ps.foldl (fun row t => rowPush i row t.1 t.2)
        (ps.foldl (fun row t => rowPush i row t.1 t.2)
          (List.replicate K emptyEntry))
      = ps.map (fun t => (⟨t.1, t.2, true⟩ : Entry)) := by
  have h1 := load_row_spec i ps [] K (by simp)
    (fun t ht => ⟨(hts t ht).1, (hts t ht).2.1, by simp, (hts t ht).2.2⟩)
    hnd (le_of_eq hlen)
  rw [List.nil_append, List.nil_append, hlen, Nat.sub_self,
    List.replicate_zero, List.append_nil] at h1
  rw [h1]
  have hmm : (ps.map (fun t => (⟨t.1, t.2, true⟩ : Entry))).map Entry.idx
      = ps.map Prod.fst := by
    rw [List.map_map]
    rfl
  apply load_row_rejects
  intro t ht
  rw [hmm]
  exact List.mem_map.mpr ⟨t, ht, rfl⟩

/-- Row `i` of the self-merge load: loading a valid graph twice through
`HeapAddQuery` fills row `i` with exactly the row's 0-indexed entries, the
second copy being rejected by dedup. -/
theorem merge_rows_getD (idx : List (List Nat)) (dist : List (List ℚ))
    (hK : ∀ r ∈ idx, r.length = (idx.headD []).length)
    (hvalid : ∀ i2, i2 < idx.length → ∀ v ∈ idx.getD i2 [],
      1 ≤ v ∧ v ≤ NPOS ∧ v ≠ i2 + 1)
    (hnodup : ∀ r ∈ idx, r.Nodup)
    (i : Nat) (hi : i < idx.length) :
    (r_to_heap_serial heapAddQuery
        (r_to_heap_serial heapAddQuery
          (mkHeap idx.length (idx.headD []).length) idx dist)
        idx dist).rows.getD i []
      = (List.range (idx.headD []).length).map
          (fun j => (⟨(idx.getD i []).getD j 0 - 1,
            RDist.fin ((dist.getD i []).getD j 0), true⟩ : Entry)) := by
  have hirow : idx.getD i [] ∈ idx := by
    rw [List.getD_eq_getElem _ _ hi]
    exact List.getElem_mem hi
  have hirlen : (idx.getD i []).length = (idx.headD []).length := hK _ hirow
  have hvi := hvalid i hi
  have hmemrow : ∀ j, j < (idx.getD i []).length →
      (idx.getD i []).getD j 0 ∈ idx.getD i [] := by
    intro j hj
    rw [List.getD_eq_getElem _ _ hj]
    exact List.getElem_mem hj
  have hif : i < (mkHeap idx.length (idx.headD []).length).rows.length := by
    simpa [mkHeap] using hi
  rw [r_to_heap_serial_query_eq, r_to_heap_serial_query_eq,
    ← List.foldl_append]
  rw [foldl_query_row i _ _ hif]
  rw [List.filter_append]
  have hfilt : (((rowMajorPairs idx.length (idx.headD []).length).map
        (mergeTuple idx dist)).filter (fun t => t.1 == i))
      = (((List.range (idx.headD []).length).map
          (fun j => (i, j))).map (mergeTuple idx dist)) := by
    rw [List.filter_map]
    rw [show ((fun t : Nat × Nat × RDist => t.1 == i) ∘ mergeTuple idx dist)
        = (fun p : Nat × Nat => p.1 == i) from rfl]
    rw [rowMajorPairs_filter idx.length (idx.headD []).length i hi]
  rw [hfilt, List.foldl_append]
  have hr0 : (mkHeap idx.length (idx.headD []).length).rows.getD i []
      = List.replicate (idx.headD []).length emptyEntry := by
    show (List.replicate idx.length
        (List.replicate (idx.headD []).length emptyEntry)).getD i []
      = List.replicate (idx.headD []).length emptyEntry
    exact getD_replicate_lt _ _ _ _ hi
  rw [hr0]
  have hconv : ∀ r : List Entry,
      ((((List.range (idx.headD []).length).map (fun j => (i, j))).map
          (mergeTuple idx dist)).foldl
          (fun row t => rowPush i row t.2.1 t.2.2) r)
        = (((List.range (idx.headD []).length).map
            (fun j => ((idx.getD i []).getD j 0 - 1,
              RDist.fin ((dist.getD i []).getD j 0)))).foldl
            (fun row t => rowPush i row t.1 t.2) r) := by
    intro r
    rw [List.foldl_map, List.foldl_map, List.foldl_map]
    rfl
  rw [hconv, hconv]
  have hts : ∀ t ∈ (List.range (idx.headD []).length).map
      (fun j => ((idx.getD i []).getD j 0 - 1,
        RDist.fin ((dist.getD i []).getD j 0))),
      t.1 ≠ i ∧ t.1 ≠ NPOS ∧ t.2 ≠ RDist.inf := by
    intro t ht
    obtain ⟨j, hj, rfl⟩ := List.mem_map.mp ht
    have hjlt : j < (idx.getD i []).length := by
      rw [hirlen]
      exact List.mem_range.mp hj
    obtain ⟨h1, h2, h3⟩ := hvi _ (hmemrow j hjlt)
    refine ⟨?_, ?_, ?_⟩
    · show (idx.getD i []).getD j 0 - 1 ≠ i
      omega
    · show (idx.getD i []).getD j 0 - 1 ≠ NPOS
      omega
    · show RDist.fin ((dist.getD i []).getD j 0) ≠ RDist.inf
      intro hh
      exact RDist.noConfusion hh
  have hnd : (((List.range (idx.headD []).length).map
      (fun j => ((idx.getD i []).getD j 0 - 1,
        RDist.fin ((dist.getD i []).getD j 0)))).map Prod.fst).Nodup := by
    rw [List.map_map]
    rw [show (Prod.fst ∘ (fun j => ((idx.getD i []).getD j 0 - 1,
        RDist.fin ((dist.getD i []).getD j 0))))
      = ((fun v => v - 1) ∘ (fun j => (idx.getD i []).getD j 0)) from rfl]
    rw [← List.map_map, ← hirlen, map_getD_range]
    refine List.Nodup.map_on ?_ (hnodup _ hirow)
    intro x hx y hy hxy
    have hxy2 : x - 1 = y - 1 := hxy
    obtain ⟨hx1, _, _⟩ := hvi x hx
    obtain ⟨hy1, _, _⟩ := hvi y hy
    omega
  rw [load_twice_row i (idx.headD []).length _ hts hnd (by simp)]
  rw [List.map_map]
  rfl

/-- Rows produced by the self-merge load are already sorted for the
deheap ordering when the distance rows are strictly increasing. -/
theorem merge_row_sorted (idx : List (List Nat)) (dist : List (List ℚ))
    (hdlen : dist.length = idx.length)
    (hdK : ∀ r ∈ dist, r.length = (idx.headD []).length)
    (hsorted : ∀ r ∈ dist, r.Pairwise (fun a b : ℚ => a < b))
    (k : Nat) (hk : k < idx.length) :
    List.Sorted entryLe ((List.range (idx.headD []).length).map
      (fun j => (⟨(idx.getD k []).getD j 0 - 1,
        RDist.fin ((dist.getD k []).getD j 0), true⟩ : Entry))) := by
  have hdk : k < dist.length := by rw [hdlen]; exact hk
  have hdrow : dist.getD k [] ∈ dist := by
    rw [List.getD_eq_getElem _ _ hdk]
    exact List.getElem_mem hdk
  have hdrlen : (dist.getD k []).length = (idx.headD []).length := hdK _ hdrow
  have hsor := hsorted _ hdrow
  apply range_entries_sorted
  intro a b hab hbK
  have haK : a < (dist.getD k []).length := by rw [hdrlen]; omega
  have hbK2 : b < (dist.getD k []).length := by rw [hdrlen]; exact hbK
  have hlt : (dist.getD k []).getD a 0 < (dist.getD k []).getD b 0 := by
    rw [List.getD_eq_getElem _ _ haK, List.getD_eq_getElem _ _ hbK2]
    exact List.pairwise_iff_getElem.mp hsor a b haK hbK2 hab
  show (!(RDist.blt (RDist.fin ((dist.getD k []).getD b 0))
      (RDist.fin ((dist.getD k []).getD a 0)))) = true
  rw [show RDist.blt (RDist.fin ((dist.getD k []).getD b 0))
      (RDist.fin ((dist.getD k []).getD a 0))
    = decide ((dist.getD k []).getD b 0 < (dist.getD k []).getD a 0)
    from rfl]
  rw [decide_eq_false (not_lt.mpr (le_of_lt hlt))]
  rfl

/-- C8 (corrected): the spec's `merge_graphs(g, g) ≡ g` fails on the
build-path `HeapAddSymmetric` (see `merge_nn_self_not_identity`: the
reverse pair pushes displace stored entries), but holds for the query-path
`HeapAddQuery`: merging a valid sorted k-NN graph with itself through
plain checked pushes reproduces the graph, because the first load fills
every row and every push of the second load is rejected by the dedup
check. -/
theorem merge_nn_query_self_identity
    (idx : List (List Nat)) (dist : List (List ℚ))
    (hdlen : dist.length = idx.length)
    (hK : ∀ r ∈ idx, r.length = (idx.headD []).length)
    (hdK : ∀ r ∈ dist, r.length = (idx.headD []).length)
    (hvalid : ∀ i, i < idx.length → ∀ v ∈ idx.getD i [],
      1 ≤ v ∧ v ≤ NPOS ∧ v ≠ i + 1)
    (hnodup : ∀ r ∈ idx, r.Nodup)
    (hsorted : ∀ r ∈ dist, r.Pairwise (fun a b : ℚ => a < b)) :
    merge_nn_impl heapAddQuery idx dist idx dist
      = (idx, dist.map (fun r => r.map RDist.fin)) := by
  have hMlen : (r_to_heap_serial heapAddQuery
      (r_to_heap_serial heapAddQuery
        (mkHeap idx.length (idx.headD []).length) idx dist)
      idx dist).rows.length = idx.length := by
    rw [r_to_heap_serial_query_rows_length,
      r_to_heap_serial_query_rows_length]
    simp [mkHeap]
  show ((((r_to_heap_serial heapAddQuery (r_to_heap_serial heapAddQuery
        (mkHeap idx.length (idx.headD []).length) idx dist)
        idx dist).rows.map (List.insertionSort entryLe)).map
          (fun r => r.map (fun e => e.idx + 1))),
      (((r_to_heap_serial heapAddQuery (r_to_heap_serial heapAddQuery
        (mkHeap idx.length (idx.headD []).length) idx dist)
        idx dist).rows.map (List.insertionSort entryLe)).map
          (fun r => r.map Entry.dist)))
    = (idx, dist.map (fun r => r.map RDist.fin))
  rw [Prod.mk.injEq]
  constructor
  · apply list_ext_getD []
    · rw [List.length_map, List.length_map, hMlen]
    · intro k hk2
      have hk : k < idx.length := by
        rw [List.length_map, List.length_map, hMlen] at hk2
        exact hk2
      have hkM : k < (r_to_heap_serial heapAddQuery
          (r_to_heap_serial heapAddQuery
            (mkHeap idx.length (idx.headD []).length) idx dist)
          idx dist).rows.length := by
        rw [hMlen]
        exact hk
      have hirow : idx.getD k [] ∈ idx := by
        rw [List.getD_eq_getElem _ _ hk]
        exact List.getElem_mem hk
      have hirlen : (idx.getD k []).length = (idx.headD []).length :=
        hK _ hirow
      rw [getD_map_lt _ _ _ [] k (by simpa using hkM),
        getD_map_lt _ _ _ [] k hkM,
        merge_rows_getD idx dist hK hvalid hnodup k hk,
        List.Sorted.insertionSort_eq
          (merge_row_sorted idx dist hdlen hdK hsorted k hk)]
      show ((List.range (idx.headD []).length).map
          (fun j => (⟨(idx.getD k []).getD j 0 - 1,
            RDist.fin ((dist.getD k []).getD j 0), true⟩ : Entry))).map
          (fun e => e.idx + 1)
        = idx.getD k []
      rw [List.map_map]
      have hcg : ((List.range (idx.headD []).length).map
          ((fun e => e.idx + 1) ∘ (fun j => (⟨(idx.getD k []).getD j 0 - 1,
            RDist.fin ((dist.getD k []).getD j 0), true⟩ : Entry))))
          = (List.range (idx.headD []).length).map
            (fun j => (idx.getD k []).getD j 0) := by
        apply List.map_congr_left
        intro j hj
        have hjlt : j < (idx.getD k []).length := by
          rw [hirlen]
          exact List.mem_range.mp hj
        have hv := hvalid k hk ((idx.getD k []).getD j 0) (by
          rw [List.getD_eq_getElem _ _ hjlt]
          exact List.getElem_mem hjlt)
        show (idx.getD k []).getD j 0 - 1 + 1 = (idx.getD k []).getD j 0
        omega
      rw [hcg, ← hirlen, map_getD_range]
  · apply list_ext_getD []
    · rw [List.length_map, List.length_map, List.length_map, hMlen, hdlen]
    · intro k hk2
      have hk : k < idx.length := by
        rw [List.length_map, List.length_map, hMlen] at hk2
        exact hk2
      have hkM : k < (r_to_heap_serial heapAddQuery
          (r_to_heap_serial heapAddQuery
            (mkHeap idx.length (idx.headD []).length) idx dist)
          idx dist).rows.length := by
        rw [hMlen]
        exact hk
      have hdk : k < dist.length := by
        rw [hdlen]
        exact hk
      have hdrow : dist.getD k [] ∈ dist := by
        rw [List.getD_eq_getElem _ _ hdk]
        exact List.getElem_mem hdk
      have hdrlen : (dist.getD k []).length = (idx.headD []).length :=
        hdK _ hdrow
      rw [getD_map_lt _ _ _ [] k (by simpa using hkM),
        getD_map_lt _ _ _ [] k hkM,
        merge_rows_getD idx dist hK hvalid hnodup k hk,
        List.Sorted.insertionSort_eq
          (merge_row_sorted idx dist hdlen hdK hsorted k hk),
        getD_map_lt _ _ _ [] k hdk]
      show ((List.range (idx.headD []).length).map
          (fun j => (⟨(idx.getD k []).getD j 0 - 1,
            RDist.fin ((dist.getD k []).getD j 0), true⟩ : Entry))).map
          Entry.dist
        = (dist.getD k []).map RDist.fin
      rw [List.map_map]
      rw [show (Entry.dist ∘ (fun j => (⟨(idx.getD k []).getD j 0 - 1,
          RDist.fin ((dist.getD k []).getD j 0), true⟩ : Entry)))
        = (RDist.fin ∘ (fun j => (dist.getD k []).getD j 0)) from rfl]
      rw [← List.map_map, ← hdrlen, map_getD_range]

/-- The self-merge identity instantiated at the valid sorted 1-NN graph
`idx = [[2],[3],[2]]`, `dist = [[1],[2],[2]]` through `HeapAddQuery`. -/
theorem merge_nn_query_self_identity_witness :
    merge_nn_impl heapAddQuery [[2], [3], [2]] [[1], [2], [2]]
        [[2], [3], [2]] [[1], [2], [2]]
      = ([[2], [3], [2]],
          [[1], [2], [2]].map (fun r => r.map RDist.fin)) :=
  merge_nn_query_self_identity [[2], [3], [2]] [[1], [2], [2]]
    (by with_unfolding_all decide) (by with_unfolding_all decide)
    (by with_unfolding_all decide) (by with_unfolding_all decide)
    (by with_unfolding_all decide) (by with_unfolding_all decide)
